import Mathlib

/-!
Shallow embedding of the hash-table implementation in `src/dict.c`
(a commented re-exposition of the Redis `dict` data structure), together
with theorems settling the specification claims about it.

Modelling conventions:
* Chains of `dictEntry` nodes are Lean lists (head of the list = head of the
  chain); the bucket array is a list of chains.  `size` and `sizemask` are
  derived from the bucket-array length exactly as the C code maintains them
  (`sizemask = size - 1`, and both are 0 for an unallocated table).
* The global `dict_can_resize` flag is threaded explicitly as a `canResize`
  argument to the functions that read it.
* `dictType`'s hash function is a parameter `hash : K → Nat`; its C return
  type is `unsigned int`, so hash values are truncated modulo 2^32.
  Key comparison is decidable equality, as in the string/integer dict types.
* Functions that return `DICT_OK`/`DICT_ERR` and mutate the dictionary are
  modelled as returning the new dictionary paired with the result code.
* Allocation (`zmalloc`/`zcalloc`) is modelled as always succeeding.
-/

set_option autoImplicit false

namespace DictModel

/-! ## Definitions -/

/-- Result code `DICT_OK` (0). -/
def DICT_OK : Nat := 0

/-- Result code `DICT_ERR` (1). -/
def DICT_ERR : Nat := 1

/-- `DICT_HT_INITIAL_SIZE` from dict.h. -/
def DICT_HT_INITIAL_SIZE : Nat := 4

/-- `LONG_MAX` on the 64-bit platform the code targets. -/
def LONG_MAX : Nat := 2 ^ 63 - 1

/-- A `dictEntry` without its `next` pointer: chains are modelled as lists. -/
structure DictEntry (K V : Type) where
  key : K
  val : V
deriving DecidableEq, Repr

/-- A hash table `dictht`.  `table` is the bucket array, each bucket holding
its chain; `used` is the separately maintained entry counter. -/
structure Dictht (K V : Type) where
  table : List (List (DictEntry K V))
  used : Nat
deriving DecidableEq, Repr

/-- `dictht.size`: the stored size always equals the bucket-array length. -/
def Dictht.size {K V : Type} (ht : Dictht K V) : Nat := ht.table.length

/-- `dictht.sizemask = size - 1` (0 for an unallocated table, as set by
`_dictReset`). -/
def Dictht.sizemask {K V : Type} (ht : Dictht K V) : Nat := ht.table.length - 1

/-- `_dictReset`: an unallocated (NULL, 0, 0, 0) hash table. -/
def resetHt (K V : Type) : Dictht K V := ⟨[], 0⟩

/-- The `dict` structure: two tables, the rehash index (-1 = not rehashing)
and the count of running safe iterators. -/
structure Dict (K V : Type) where
  ht0 : Dictht K V
  ht1 : Dictht K V
  rehashidx : Int
  iterators : Nat
deriving DecidableEq, Repr

/-- `dictCreate`/`_dictInit`: both tables reset, `rehashidx = -1`,
`iterators = 0`. -/
def dictCreate (K V : Type) : Dict K V := ⟨resetHt K V, resetHt K V, -1, 0⟩

/-- `dictIsRehashing(d)`: `rehashidx != -1`. -/
def dictIsRehashing {K V : Type} (d : Dict K V) : Prop := d.rehashidx ≠ -1

instance {K V : Type} (d : Dict K V) : Decidable (dictIsRehashing d) :=
  instDecidableNot

/-- `dictSize(d) = ht[0].used + ht[1].used`. -/
def dictSize {K V : Type} (d : Dict K V) : Nat := d.ht0.used + d.ht1.used

/-- `dictHashKey`: the type's hash function, whose C return type is
`unsigned int` (32 bits). -/
def dictHashKey {K : Type} (hash : K → Nat) (key : K) : Nat :=
  hash key % 2 ^ 32

/-- The doubling loop of `_dictNextPower`: starting from `i`, keep doubling
while `i < size`.  The C loop runs with `i ≥ 4` and is unbounded; the `fuel`
argument only witnesses termination (the caller passes `fuel = size`, which
always suffices since `4·2^size > size`, so the `fuel = 0` branch is never
the one that answers).  The extra `0 < i` test does not change the function
on any input the code can pass. -/
def nextPowerLoop (size : Nat) : Nat → Nat → Nat
  | 0, i => i
  | fuel + 1, i => if 0 < i ∧ i < size then nextPowerLoop size fuel (i * 2) else i

/-- `_dictNextPower`: smallest value of the form `4·2^t` that is `≥ size`,
except that any request `≥ LONG_MAX` is answered with `LONG_MAX`. -/
def _dictNextPower (size : Nat) : Nat :=
  if size ≥ LONG_MAX then LONG_MAX
  else nextPowerLoop size size DICT_HT_INITIAL_SIZE

/-- `dictExpand(d, size)`: rejected while rehashing or when `used > size` or
when the computed real size equals the current `ht[0].size`; otherwise the
new table either becomes `ht[0]` (first allocation) or becomes `ht[1]` and
rehashing starts. -/
def dictExpand {K V : Type} (d : Dict K V) (size : Nat) : Dict K V × Nat :=
  if dictIsRehashing d ∨ d.ht0.used > size then (d, DICT_ERR)
  else
    let realsize := _dictNextPower size
    if realsize = d.ht0.size then (d, DICT_ERR)
    else
      let n : Dictht K V := ⟨List.replicate realsize [], 0⟩
      if d.ht0.table.isEmpty then ({ d with ht0 := n }, DICT_OK)
      else ({ d with ht1 := n, rehashidx := 0 }, DICT_OK)

/-- The bucket (chain) at index `i` of a bucket array; an out-of-range index
gives the empty chain. -/
def bucketAt {α : Type} (t : List (List α)) (i : Nat) : List α := t.getD i []

/-- The `used` counter of a table agrees with the number of entries actually
chained in its buckets. -/
def htConsistent {K V : Type} (ht : Dictht K V) : Prop :=
  ht.used = ht.table.flatten.length

/-- Every entry of the table sits in the bucket its (masked) hash selects.
(Stated for in-range indexes so the predicate stays decidable.) -/
def wellPlacedHt {K V : Type} (hash : K → Nat) (ht : Dictht K V) : Prop :=
  ∀ i < ht.table.length, ∀ e ∈ bucketAt ht.table i,
    dictHashKey hash e.key &&& ht.sizemask = i

instance {K V : Type} (ht : Dictht K V) : Decidable (htConsistent ht) :=
  inferInstanceAs (Decidable (ht.used = ht.table.flatten.length))

instance {K V : Type} (hash : K → Nat) (ht : Dictht K V) :
    Decidable (wellPlacedHt hash ht) :=
  inferInstanceAs (Decidable (∀ i < ht.table.length, ∀ e ∈ bucketAt ht.table i,
    dictHashKey hash e.key &&& ht.sizemask = i))

/-- All entries of the dictionary (both tables), as a multiset. -/
def dictEntriesMS {K V : Type} (d : Dict K V) : Multiset (DictEntry K V) :=
  ↑(d.ht0.table.flatten ++ d.ht1.table.flatten)

/-- The chain-migration inner loop of `dictRehash`: each entry of the chain
is relinked, by head insertion, into the `ht[1]` bucket selected by
`dictHashKey(key) & ht[1].sizemask`, incrementing `ht[1].used` per entry. -/
def migrateChain {K V : Type} (hash : K → Nat) :
    List (DictEntry K V) → Dictht K V → Dictht K V
  | [], ht1 => ht1
  | e :: rest, ht1 =>
    let h := dictHashKey hash e.key &&& ht1.sizemask
    migrateChain hash rest ⟨ht1.table.set h (e :: bucketAt ht1.table h), ht1.used + 1⟩

/-- The `while (table[rehashidx] == NULL)` loop of `dictRehash`: advance the
index past empty buckets, spending one unit of the `empty_visits` budget per
empty bucket; report `false` when the budget hits zero (the C code then
returns 1). -/
def skipEmpty {K V : Type} (t : List (List (DictEntry K V))) :
    Nat → Nat → Nat × Nat × Bool
  | idx, 0 => if (bucketAt t idx).isEmpty then (idx + 1, 0, false) else (idx, 0, true)
  | idx, 1 => if (bucketAt t idx).isEmpty then (idx + 1, 0, false) else (idx, 1, true)
  | idx, ev + 2 =>
    if (bucketAt t idx).isEmpty then skipEmpty t (idx + 1) (ev + 1)
    else (idx, ev + 2, true)

/-- The completion check at the end of `dictRehash`: when `ht[0].used`
reaches 0, free `ht[0]`, move `ht[1]` into its place, reset `ht[1]`, set
`rehashidx` back to -1 and report completion (0); otherwise report 1. -/
def dictRehashCompleteCheck {K V : Type} (d : Dict K V) : Dict K V × Nat :=
  if d.ht0.used = 0 then
    ({ d with ht0 := d.ht1, ht1 := resetHt K V, rehashidx := -1 }, 0)
  else (d, 1)

/-- The main loop of `dictRehash`: up to `n` non-empty buckets, sharing the
`empty_visits` budget `ev` across iterations. -/
def dictRehashLoop {K V : Type} (hash : K → Nat) :
    Nat → Nat → Dict K V → Dict K V × Nat
  | 0, _, d => dictRehashCompleteCheck d
  | n + 1, ev, d =>
    if d.ht0.used = 0 then dictRehashCompleteCheck d
    else
      match skipEmpty d.ht0.table d.rehashidx.toNat ev with
      | (idx, ev', found) =>
        if found then
          let chain := bucketAt d.ht0.table idx
          dictRehashLoop hash n ev'
            { d with
              ht0 := ⟨d.ht0.table.set idx [], d.ht0.used - chain.length⟩,
              ht1 := migrateChain hash chain d.ht1,
              rehashidx := ((idx + 1 : Nat) : Int) }
        else ({ d with rehashidx := ((idx : Nat) : Int) }, 1)

/-- `dictRehash(d, n)`: returns 0 when not rehashing or when this call
completed the rehash, 1 when more work remains. -/
def dictRehash {K V : Type} (hash : K → Nat) (d : Dict K V) (n : Nat) :
    Dict K V × Nat :=
  if dictIsRehashing d then dictRehashLoop hash n (n * 10) d else (d, 0)

/-- `_dictRehashStep`: a single rehash step, performed only when no safe
iterator is running. -/
def _dictRehashStep {K V : Type} (hash : K → Nat) (d : Dict K V) : Dict K V :=
  if d.iterators = 0 then (dictRehash hash d 1).1 else d

/-- `dictFind`: after an optional rehash step, probe `ht[0]` at
`hash & sizemask`, then (only while rehashing) `ht[1]`.  Returns the
(possibly rehash-stepped) dictionary together with the entry found. -/
def dictFind {K V : Type} [DecidableEq K] (hash : K → Nat) (d : Dict K V)
    (key : K) : Dict K V × Option (DictEntry K V) :=
  if d.ht0.size = 0 then (d, none)
  else
    let d := if dictIsRehashing d then _dictRehashStep hash d else d
    let h := dictHashKey hash key
    match (bucketAt d.ht0.table (h &&& d.ht0.sizemask)).find?
        (fun e => decide (e.key = key)) with
    | some e => (d, some e)
    | none =>
      if dictIsRehashing d then
        (d, (bucketAt d.ht1.table (h &&& d.ht1.sizemask)).find?
          (fun e => decide (e.key = key)))
      else (d, none)

/-- `dictFetchValue`: the value of the entry found by `dictFind`, if any. -/
def dictFetchValue {K V : Type} [DecidableEq K] (hash : K → Nat) (d : Dict K V)
    (key : K) : Dict K V × Option V :=
  let r := dictFind hash d key
  (r.1, r.2.map DictEntry.val)

/-- The rehashing invariant of dict.c: every `ht[0]` bucket below the rehash
cursor has already been emptied. -/
def emptyBelow {K V : Type} (d : Dict K V) : Prop :=
  ∀ j < d.rehashidx.toNat, bucketAt d.ht0.table j = []

instance {K V : Type} [DecidableEq K] [DecidableEq V] (d : Dict K V) :
    Decidable (emptyBelow d) :=
  inferInstanceAs (Decidable (∀ j < d.rehashidx.toNat, bucketAt d.ht0.table j = []))

/-- The contract of one `dictRehash`-style call on `d` with result `r` and
bucket-visit budget `b`: entries and counters are conserved, the structural
invariants are preserved, the result code is 0 exactly on completion (tables
swapped, `ht[1]` reset, sentinel restored), and otherwise `rehashidx` has
advanced by at most `b`. -/
def rehashStepOK {K V : Type} (hash : K → Nat) (d : Dict K V) (b : Nat)
    (r : Dict K V × Nat) : Prop :=
  dictSize r.1 = dictSize d ∧
  dictEntriesMS r.1 = dictEntriesMS d ∧
  htConsistent r.1.ht0 ∧ htConsistent r.1.ht1 ∧
  wellPlacedHt hash r.1.ht0 ∧ wellPlacedHt hash r.1.ht1 ∧
  (r.2 = 0 ∨ r.2 = 1) ∧
  (r.2 = 0 ↔ r.1.rehashidx = -1) ∧
  (r.2 = 0 → r.1.ht1 = resetHt K V ∧ r.1.ht0.used = dictSize d ∧
    r.1.ht0.table.length = d.ht1.table.length) ∧
  (r.2 = 1 → d.rehashidx ≤ r.1.rehashidx ∧
    r.1.rehashidx.toNat ≤ d.rehashidx.toNat + b ∧
    r.1.ht0.table.length = d.ht0.table.length ∧
    r.1.ht1.table.length = d.ht1.table.length ∧
    emptyBelow r.1) ∧
  r.1.iterators = d.iterators

/-- `dict_force_resize_ratio` (5). -/
def dict_force_resize_ratio : Nat := 5

/-- `_dictExpandIfNeeded`: nothing while rehashing; initial allocation when
`ht[0]` is empty; otherwise double from `used` when `used ≥ size` and either
resizing is enabled or the load factor exceeds the forced ratio. -/
def _dictExpandIfNeeded {K V : Type} (canResize : Bool) (d : Dict K V) :
    Dict K V × Nat :=
  if dictIsRehashing d then (d, DICT_OK)
  else if d.ht0.size = 0 then dictExpand d DICT_HT_INITIAL_SIZE
  else if d.ht0.used ≥ d.ht0.size ∧
      (canResize = true ∨ d.ht0.used / d.ht0.size > dict_force_resize_ratio) then
    dictExpand d (d.ht0.used * 2)
  else (d, DICT_OK)

/-- `_dictKeyIndex`: after the capacity check, search the key's bucket in
`ht[0]` and (only while rehashing) in `ht[1]`; `none` models the -1 result
(key already present, or the expansion attempt failed).  The returned index
belongs to the last table examined (`ht[1]` while rehashing). -/
def _dictKeyIndex {K V : Type} [DecidableEq K] (hash : K → Nat)
    (canResize : Bool) (d : Dict K V) (key : K) : Dict K V × Option Nat :=
  match _dictExpandIfNeeded canResize d with
  | (d, code) =>
    if code = DICT_ERR then (d, none)
    else
      let h := dictHashKey hash key
      let idx0 := h &&& d.ht0.sizemask
      if (bucketAt d.ht0.table idx0).any (fun e => decide (e.key = key)) then
        (d, none)
      else if dictIsRehashing d then
        let idx1 := h &&& d.ht1.sizemask
        if (bucketAt d.ht1.table idx1).any (fun e => decide (e.key = key)) then
          (d, none)
        else (d, some idx1)
      else (d, some idx0)

/-- `dictAdd` (the composition of `dictAddRaw` and `dictSetVal`): one rehash
step if rehashing, then `_dictKeyIndex`; on success the new entry is
head-inserted into the selected bucket of `ht[1]` (while rehashing) or
`ht[0]`, and that table's `used` counter is incremented. -/
def dictAdd {K V : Type} [DecidableEq K] (hash : K → Nat) (canResize : Bool)
    (d : Dict K V) (key : K) (val : V) : Dict K V × Nat :=
  let d := if dictIsRehashing d then _dictRehashStep hash d else d
  match _dictKeyIndex hash canResize d key with
  | (d, none) => (d, DICT_ERR)
  | (d, some idx) =>
    if dictIsRehashing d then
      ({ d with ht1 := ⟨d.ht1.table.set idx (⟨key, val⟩ :: bucketAt d.ht1.table idx),
        d.ht1.used + 1⟩ }, DICT_OK)
    else
      ({ d with ht0 := ⟨d.ht0.table.set idx (⟨key, val⟩ :: bucketAt d.ht0.table idx),
        d.ht0.used + 1⟩ }, DICT_OK)

/-- The effect of `dictSetVal` through the pointer returned by `dictFind`:
overwrite the value of the entry (unique, by the no-duplicate invariant)
holding `key`. -/
def htSetVal {K V : Type} [DecidableEq K] (key : K) (val : V) (ht : Dictht K V) :
    Dictht K V :=
  ⟨ht.table.map (fun chain => chain.map
      (fun e => if e.key = key then ⟨e.key, val⟩ else e)),
    ht.used⟩

/-- `dictReplace`: try `dictAdd`; if the key exists, find it (one more
rehash step inside `dictFind`) and overwrite its value in place.  Returns 1
when the key was inserted, 0 when an existing value was replaced. -/
def dictReplace {K V : Type} [DecidableEq K] (hash : K → Nat) (canResize : Bool)
    (d : Dict K V) (key : K) (val : V) : Dict K V × Nat :=
  match dictAdd hash canResize d key val with
  | (d, code) =>
    if code = DICT_OK then (d, 1)
    else
      let d := (dictFind hash d key).1
      ({ d with ht0 := htSetVal key val d.ht0, ht1 := htSetVal key val d.ht1 }, 0)

/-- Unlink the first entry with the given key from a chain (the
`prevHe`-patching walk of `dictGenericDelete`); reports whether an entry
was removed. -/
def removeFirst {K V : Type} [DecidableEq K] (key : K) :
    List (DictEntry K V) → List (DictEntry K V) × Bool
  | [] => ([], false)
  | e :: rest =>
    if e.key = key then (rest, true)
    else
      match removeFirst key rest with
      | (rest', found) => (e :: rest', found)

/-- `dictGenericDelete` (the `nofree` flag only controls key/value
destruction, which the model does not track): one rehash step if rehashing,
then unlink from the key's bucket in `ht[0]`, falling through to `ht[1]`
only while rehashing. -/
def dictGenericDelete {K V : Type} [DecidableEq K] (hash : K → Nat)
    (d : Dict K V) (key : K) : Dict K V × Nat :=
  if d.ht0.size = 0 then (d, DICT_ERR)
  else
    let d := if dictIsRehashing d then _dictRehashStep hash d else d
    let h := dictHashKey hash key
    let idx0 := h &&& d.ht0.sizemask
    match removeFirst key (bucketAt d.ht0.table idx0) with
    | (chain0, true) =>
      ({ d with ht0 := ⟨d.ht0.table.set idx0 chain0, d.ht0.used - 1⟩ }, DICT_OK)
    | (_, false) =>
      if dictIsRehashing d then
        let idx1 := h &&& d.ht1.sizemask
        match removeFirst key (bucketAt d.ht1.table idx1) with
        | (chain1, true) =>
          ({ d with ht1 := ⟨d.ht1.table.set idx1 chain1, d.ht1.used - 1⟩ }, DICT_OK)
        | (_, false) => (d, DICT_ERR)
      else (d, DICT_ERR)

/-- `dictDelete`: delete and free (freeing is not modelled). -/
def dictDelete {K V : Type} [DecidableEq K] (hash : K → Nat) (d : Dict K V)
    (key : K) : Dict K V × Nat :=
  dictGenericDelete hash d key

/-- `dictResize`: shrink-to-fit to `max(used, DICT_HT_INITIAL_SIZE)`,
rejected when resizing is disabled or a rehash is running. -/
def dictResize {K V : Type} (canResize : Bool) (d : Dict K V) : Dict K V × Nat :=
  if ¬ canResize = true ∨ dictIsRehashing d then (d, DICT_ERR)
  else
    let minimal := if d.ht0.used < DICT_HT_INITIAL_SIZE then DICT_HT_INITIAL_SIZE
      else d.ht0.used
    dictExpand d minimal

/-- `dict_hash_function_seed` (5381). -/
def dict_hash_function_seed : Nat := 5381

/-- The 4-byte mixing loop of MurmurHash2 (`dictGenHashFunction`), on a list
of byte values with little-endian 32-bit loads; returns the mixed hash and
the remaining (less than 4) tail bytes. -/
def murmurBlocks : List Nat → Nat → Nat × List Nat
  | b0 :: b1 :: b2 :: b3 :: rest, h =>
    let m := 0x5bd1e995
    let k := (b0 + b1 * 256 + b2 * 65536 + b3 * 16777216) % 2 ^ 32
    let k := k * m % 2 ^ 32
    let k := k ^^^ (k >>> 24)
    let k := k * m % 2 ^ 32
    let h := h * m % 2 ^ 32
    murmurBlocks rest (h ^^^ k)
  | rest, h => (h, rest)

/-- `dictGenHashFunction`: MurmurHash2 over the key's bytes, seeded by
`dict_hash_function_seed`; all arithmetic is on 32-bit unsigned values. -/
def dictGenHashFunction (bytes : List Nat) : Nat :=
  let m := 0x5bd1e995
  let h0 := (dict_hash_function_seed ^^^ bytes.length) % 2 ^ 32
  match murmurBlocks bytes h0 with
  | (h, tail) =>
    let h := match tail with
      | [b0, b1, b2] => (((h ^^^ (b2 <<< 16)) ^^^ (b1 <<< 8)) ^^^ b0) * m % 2 ^ 32
      | [b0, b1] => ((h ^^^ (b1 <<< 8)) ^^^ b0) * m % 2 ^ 32
      | [b0] => ((h ^^^ b0) * m) % 2 ^ 32
      | _ => h
    let h := h ^^^ (h >>> 13)
    let h := h * m % 2 ^ 32
    h ^^^ (h >>> 15)

/-- Structural well-formedness of a dictionary state, as maintained by the
dict.c API: counters match chain contents, entries sit in their hash
buckets, buckets below the rehash cursor are empty, a rehashing dictionary
has a non-empty cursor and an allocated `ht[1]`, and a non-rehashing
dictionary has a reset `ht[1]`. -/
def dictWF {K V : Type} (hash : K → Nat) (d : Dict K V) : Prop :=
  htConsistent d.ht0 ∧ htConsistent d.ht1 ∧
  wellPlacedHt hash d.ht0 ∧ wellPlacedHt hash d.ht1 ∧
  emptyBelow d ∧
  (dictIsRehashing d → 0 ≤ d.rehashidx ∧ 0 < d.ht1.table.length) ∧
  (¬ dictIsRehashing d → d.ht1 = resetHt K V)

instance {K V : Type} [DecidableEq K] [DecidableEq V] (hash : K → Nat)
    (d : Dict K V) : Decidable (dictWF hash d) :=
  inferInstanceAs (Decidable (htConsistent d.ht0 ∧ htConsistent d.ht1 ∧
    wellPlacedHt hash d.ht0 ∧ wellPlacedHt hash d.ht1 ∧
    emptyBelow d ∧
    (dictIsRehashing d → 0 ≤ d.rehashidx ∧ 0 < d.ht1.table.length) ∧
    (¬ dictIsRehashing d → d.ht1 = resetHt K V)))

/-- The multiset of keys stored in the dictionary. -/
def dictKeysMS {K V : Type} (d : Dict K V) : Multiset K :=
  (dictEntriesMS d).map DictEntry.key

/-- Dictionary states reachable from `dictCreate` through the mutating API
(`dictAdd`/`dictReplace`/`dictDelete`/`dictRehash`, with `dictAdd` covering
`dictAddRaw` composed with `dictSetVal`). -/
inductive Reachable {K V : Type} [DecidableEq K] (hash : K → Nat) :
    Dict K V → Prop
  | create : Reachable hash (dictCreate K V)
  | add (d : Dict K V) (canResize : Bool) (key : K) (val : V) :
      Reachable hash d → Reachable hash (dictAdd hash canResize d key val).1
  | replace (d : Dict K V) (canResize : Bool) (key : K) (val : V) :
      Reachable hash d → Reachable hash (dictReplace hash canResize d key val).1
  | del (d : Dict K V) (key : K) :
      Reachable hash d → Reachable hash (dictDelete hash d key).1
  | rehash (d : Dict K V) (n : Nat) :
      Reachable hash d → Reachable hash (dictRehash hash d n).1

/-- The identity hash on `Nat` keys, used for concrete witnesses (a valid
`dictType` hash function). -/
def idHash : Nat → Nat := fun k => k

/-- A small rehashing dictionary (one entry in `ht[0]`, empty `ht[1]` of
size 2, cursor at 0) used as a concrete witness input. -/
def rehashingW : Dict Nat Nat := ⟨⟨[[⟨2, 0⟩]], 1⟩, ⟨[[], []], 0⟩, 0, 0⟩

/-- The same dictionary as `rehashingW` but with one live safe iterator. -/
def iteratingW : Dict Nat Nat := ⟨⟨[[⟨2, 0⟩]], 1⟩, ⟨[[], []], 0⟩, 0, 1⟩

/-- The dictionary of the C9 scenario after inserting key "a" (bytes [97])
with value "1" (bytes [49]), under the string hash and default settings. -/
def c9d1 : Dict (List Nat) (List Nat) :=
  (dictAdd dictGenHashFunction true (dictCreate (List Nat) (List Nat)) [97] [49]).1

/-- The C9 scenario dictionary after `replace("a", "2")`. -/
def c9d3 : Dict (List Nat) (List Nat) :=
  (dictReplace dictGenHashFunction true c9d1 [97] [50]).1

/-- The C9 scenario dictionary after `delete("a")`. -/
def c9d4 : Dict (List Nat) (List Nat) :=
  (dictDelete dictGenHashFunction c9d3 [97]).1

/-- A rehashing dictionary (keys 0 and 1 in `ht[0]` of size 2, empty `ht[1]`
of size 4, cursor 0) on which a duplicate `dictAdd` performs a rehash step
before failing. -/
def c10w : Dict Nat Nat := ⟨⟨[[⟨0, 0⟩], [⟨1, 0⟩]], 2⟩, ⟨[[], [], [], []], 0⟩, 0, 0⟩

/-- Arithmetic (sign-extending) right shift of a 64-bit two's-complement
value held as a `Nat` below `2^64` (the de-facto semantics of `>>` on a
negative `long long`, which dictFingerprint relies on). -/
def asr64 (n h : Nat) : Nat :=
  if h < 2 ^ 63 then h >>> n else h >>> n + (2 ^ 64 - 2 ^ (64 - n))

/-- One round of the Thomas Wang 64-bit mix used by `dictFingerprint`
(all additions, complements and left shifts wrap modulo `2^64`; right
shifts are arithmetic). -/
def twRound (h0 : Nat) : Nat :=
  let h1 := (2 ^ 64 - 1 - h0 % 2 ^ 64 + h0 * 2 ^ 21) % 2 ^ 64
  let h2 := h1 ^^^ asr64 24 h1
  let h3 := (h2 + h2 * 2 ^ 3 + h2 * 2 ^ 8) % 2 ^ 64
  let h4 := h3 ^^^ asr64 14 h3
  let h5 := (h4 + h4 * 2 ^ 2 + h4 * 2 ^ 4) % 2 ^ 64
  let h6 := h5 ^^^ asr64 28 h5
  (h6 + h6 * 2 ^ 31) % 2 ^ 64

/-- The `dictFingerprint` accumulation `hash = mix(hash + integers[j])` over
the six table-identity integers. -/
def dictFingerprintNums (xs : List Nat) : Nat :=
  xs.foldl (fun h x => twRound ((h + x) % 2 ^ 64)) 0

/-- `dictFingerprint`: the Thomas Wang mix over
`[ht0.table, ht0.size, ht0.used, ht1.table, ht1.size, ht1.used]`.  The two
bucket-array base addresses, which the model's lists do not carry, are
passed explicitly as `p0`/`p1`. -/
def dictFingerprint {K V : Type} (p0 p1 : Nat) (d : Dict K V) : Nat :=
  dictFingerprintNums
    [p0, d.ht0.size, d.ht0.used, p1, d.ht1.size, d.ht1.used]

/-- A `dictIterator` without its dict pointer (the dictionary is threaded
explicitly).  `entry`/`nextEntry` are the chain suffixes starting at the
corresponding `dictEntry` pointers (`[]` models NULL). -/
structure DictIterator (K V : Type) where
  table : Nat
  index : Int
  safe : Bool
  entry : List (DictEntry K V)
  nextEntry : List (DictEntry K V)
  fingerprint : Nat
deriving DecidableEq, Repr

/-- `dictGetIterator`: a fresh unsafe iterator (`fingerprint` is written
before it is ever read; the model initialises it to 0). -/
def dictGetIterator (K V : Type) : DictIterator K V := ⟨0, -1, false, [], [], 0⟩

/-- `dictGetSafeIterator`. -/
def dictGetSafeIterator (K V : Type) : DictIterator K V :=
  { dictGetIterator K V with safe := true }

/-- The `while(1)` body of `dictNext`, with explicit fuel (the C loop
terminates because each iteration either returns, breaks, or moves the
iterator strictly forward; every caller below passes more fuel than the
loop can consume, so the fuel-exhaustion branch is never the one that
answers).  Returns the updated dictionary (safe iterators register
themselves on the first advance), the updated iterator, and the entry
produced (`none` models the NULL return). -/
def dictNextLoop {K V : Type} (p0 p1 : Nat) :
    Nat → Dict K V → DictIterator K V →
    Dict K V × DictIterator K V × Option (DictEntry K V)
  | 0, d, it => (d, it, none)
  | fuel + 1, d, it =>
    let step : Option (Dict K V × DictIterator K V) :=
      if it.entry.isEmpty then
        let first := it.index = -1 ∧ it.table = 0
        let d := if first ∧ it.safe = true then
          { d with iterators := d.iterators + 1 } else d
        let it := if first ∧ ¬ it.safe = true then
          { it with fingerprint := dictFingerprint p0 p1 d } else it
        let it := { it with index := it.index + 1 }
        let htsize := if it.table = 0 then d.ht0.size else d.ht1.size
        if it.index ≥ (htsize : Int) then
          if dictIsRehashing d ∧ it.table = 0 then
            some (d, { it with
              table := 1, index := 0, entry := bucketAt d.ht1.table 0 })
          else none
        else
          let b := bucketAt (if it.table = 0 then d.ht0.table else d.ht1.table)
            it.index.toNat
          some (d, { it with entry := b })
      else some (d, { it with entry := it.nextEntry })
    match step with
    | none => (d, it, none)
    | some (d, it) =>
      match it.entry with
      | e :: rest => (d, { it with nextEntry := rest }, some e)
      | [] => dictNextLoop p0 p1 fuel d it

/-- `dictNext`, with fuel covering every bucket and entry of both tables. -/
def dictNext {K V : Type} (p0 p1 : Nat) (d : Dict K V) (it : DictIterator K V) :
    Dict K V × DictIterator K V × Option (DictEntry K V) :=
  dictNextLoop p0 p1 (d.ht0.size + d.ht1.size + dictSize d + 2) d it

/-- `dictReleaseIterator` as written in this source: if the iterator was
started, a safe iterator deregisters itself, while for an unsafe iterator
the branch body is empty — the fingerprint check of upstream Redis
(`assert(iter->fingerprint == dictFingerprint(iter->d))`, dict.c line 844)
is commented out, so no mismatch is ever detected and the function always
returns normally.  The returned flag tells whether the process was aborted,
which is therefore constantly `false`. -/
def dictReleaseIterator {K V : Type} (d : Dict K V) (it : DictIterator K V) :
    Dict K V × Bool :=
  if ¬ (it.index = -1 ∧ it.table = 0) then
    if it.safe = true then ({ d with iterators := d.iterators - 1 }, false)
    else (d, false)
  else (d, false)

/-- The C2 scenario dictionary: one entry (key 1, value 10) in its hash
bucket of an `ht[0]` of size 4, not rehashing, no iterators. -/
def c2d0 : Dict Nat Nat := ⟨⟨[[], [⟨1, 10⟩], [], []], 1⟩, ⟨[], 0⟩, -1, 0⟩

/-- Stand-in base address of `ht[0].table` in the C2 scenario. -/
def c2p0 : Nat := 4096

/-- Stand-in base address of `ht[1].table` in the C2 scenario. -/
def c2p1 : Nat := 0

/-- First advance of a fresh unsafe iterator on `c2d0`. -/
def c2next : Dict Nat Nat × DictIterator Nat Nat × Option (DictEntry Nat Nat) :=
  dictNext c2p0 c2p1 c2d0 (dictGetIterator Nat Nat)

/-- One iteration of the bit-reversal loop of `rev` on the pair
`(mask, v)` for shift amount `s` (64-bit words; shifts wrap modulo
`2^64`). -/
def revStep (s : Nat) (p : Nat × Nat) : Nat × Nat :=
  let mask := p.1 ^^^ (p.1 <<< s % 2 ^ 64)
  (mask, ((p.2 >>> s) &&& mask) |||
    ((p.2 <<< s % 2 ^ 64) &&& (mask ^^^ (2 ^ 64 - 1))))

/-- `rev`: reverse the bits of a 64-bit word (`s` runs through
32, 16, 8, 4, 2, 1, starting from `mask = ~0`). -/
def rev (v : Nat) : Nat :=
  ([32, 16, 8, 4, 2, 1].foldl (fun p s => revStep s p) (2 ^ 64 - 1, v)).2

/-- The common cursor-advance tail of `dictScan`:
`v |= ~m0; v = rev(v); v++; v = rev(v)` on 64-bit words. -/
def scanCursorNext (m0 v : Nat) : Nat :=
  rev ((rev (v ||| (m0 ^^^ (2 ^ 64 - 1))) + 1) % 2 ^ 64)

/-- The do-while of `dictScan` over the larger table `t1`: emit the chain at
`v & m1`, increment the bits of `v` not covered by `m0`, and continue while
some bit of the mask difference is set.  The do-while runs at most
`t1.size / (m0+1)` times, so the fuel passed by `dictScan` (one more than
`t1.size`) always suffices and the fuel-exhaustion branch never answers. -/
def scanExpand {K V : Type} (t1 : Dictht K V) (m0 m1 : Nat) :
    Nat → Nat → List (DictEntry K V) × Nat
  | 0, v => ([], v)
  | fuel + 1, v =>
    let out := bucketAt t1.table (v &&& m1)
    let v' := ((((v ||| m0) + 1) % 2 ^ 64) &&& (m0 ^^^ (2 ^ 64 - 1))) |||
      (v &&& m0)
    if v' &&& (m0 ^^^ m1) ≠ 0 then
      let r := scanExpand t1 m0 m1 fuel v'
      (out ++ r.1, r.2)
    else (out, v')

/-- `dictScan`: visit the cursor's bucket (both tables' expansions while
rehashing, smaller table first) and return the emitted entries in emission
order together with the next cursor. -/
def dictScan {K V : Type} (d : Dict K V) (v : Nat) :
    List (DictEntry K V) × Nat :=
  if dictSize d = 0 then ([], 0)
  else if ¬ dictIsRehashing d then
    let m0 := d.ht0.sizemask
    (bucketAt d.ht0.table (v &&& m0), scanCursorNext m0 v)
  else
    let t0 := if d.ht0.size > d.ht1.size then d.ht1 else d.ht0
    let t1 := if d.ht0.size > d.ht1.size then d.ht0 else d.ht1
    let m0 := t0.sizemask
    let m1 := t1.sizemask
    let out0 := bucketAt t0.table (v &&& m0)
    let r := scanExpand t1 m0 m1 (t1.size + 1) v
    (out0 ++ r.1, scanCursorNext m0 r.2)

/-- The C1 scenario before the shrink: keys 4 and 8 (under the identity
hash) in an `ht[0]` of size 16, not rehashing. -/
def c1dA : Dict Nat Nat :=
  ⟨⟨[[], [], [], [], [⟨4, 0⟩], [], [], [],
     [⟨8, 0⟩], [], [], [], [], [], [], []], 2⟩, ⟨[], 0⟩, -1, 0⟩

/-- The C1 scenario after `dictResize` starts shrinking to size 4. -/
def c1dB : Dict Nat Nat := (dictResize true c1dA).1

/-- The mutable locals of the `dictGetSomeKeys` sampling loop: the bucket
index `i`, the contiguous-empty-bucket counter, the index of the next
pseudo-random number to consume, and the entries collected so far. -/
structure SKState (K V : Type) where
  i : Nat
  emptylen : Nat
  ridx : Nat
  out : List (DictEntry K V)
deriving DecidableEq, Repr

/-- The body of the `for (j = 0; j < tables; j++)` loop of
`dictGetSomeKeys` for one table `j`: skip the rehashing dead zone of
`ht[0]` (jumping `i` to the rehash index when also out of range for
`ht[1]`), skip out-of-range indexes, count contiguous empty buckets and
jump to a fresh random index when they reach `max(5, count+1)`, and
otherwise collect the bucket's chain until `count` entries are stored.
`rehashidx` is read through the C cast to `unsigned int`.  The returned
flag is the early `return stored` taken when `count` is reached. -/
def skTable {K V : Type} (d : Dict K V) (count tables maxsizemask : Nat)
    (randf : Nat → Nat) (j : Nat) (s : SKState K V) : SKState K V × Bool :=
  if tables = 2 ∧ j = 0 ∧ s.i < (d.rehashidx % (2 ^ 32 : Int)).toNat then
    if s.i ≥ d.ht1.size then
      ({ s with i := (d.rehashidx % (2 ^ 32 : Int)).toNat }, false)
    else (s, false)
  else
    let ht := if j = 0 then d.ht0 else d.ht1
    if s.i ≥ ht.size then (s, false)
    else
      match bucketAt ht.table s.i with
      | [] =>
        if s.emptylen + 1 ≥ 5 ∧ s.emptylen + 1 > count then
          let inew := randf s.ridx &&& maxsizemask
          ({ s with i := inew, ridx := s.ridx + 1, emptylen := 0 }, false)
        else ({ s with emptylen := s.emptylen + 1 }, false)
      | chain =>
        let newout := s.out ++ chain.take (count - s.out.length)
        ({ s with emptylen := 0, out := newout },
          decide (newout.length = count))

/-- The `while (stored < count && maxsteps--)` loop of `dictGetSomeKeys`
(the fuel is the remaining `maxsteps`). -/
def someKeysLoop {K V : Type} (d : Dict K V) (count tables maxsizemask : Nat)
    (randf : Nat → Nat) : Nat → SKState K V → List (DictEntry K V)
  | 0, s => s.out
  | fuel + 1, s =>
    if s.out.length < count then
      match skTable d count tables maxsizemask randf 0 s with
      | (s1, true) => s1.out
      | (s1, false) =>
        match (if tables = 2 then skTable d count tables maxsizemask randf 1 s1
            else (s1, false)) with
        | (s2, true) => s2.out
        | (s2, false) =>
          someKeysLoop d count tables maxsizemask randf fuel
            { s2 with i := (s2.i + 1) &&& maxsizemask }
    else s.out

/-- The `count` leading rehash steps of `dictGetSomeKeys` (stopping early
when rehashing completes). -/
def skRehashSteps {K V : Type} (hash : K → Nat) : Nat → Dict K V → Dict K V
  | 0, d => d
  | n + 1, d =>
    if dictIsRehashing d then skRehashSteps hash n (_dictRehashStep hash d)
    else d

/-- `dictGetSomeKeys`: clamp `count` to the live size, do up to `count`
rehash steps, then sample buckets starting from a random index, with a
step budget of `10 · count`; `randf` plays the role of `random()` (its
argument counts the calls made so far). -/
def dictGetSomeKeys {K V : Type} (hash : K → Nat) (randf : Nat → Nat)
    (d : Dict K V) (count : Nat) : List (DictEntry K V) :=
  let count := if dictSize d < count then dictSize d else count
  let d := skRehashSteps hash count d
  let tables := if dictIsRehashing d then 2 else 1
  let maxsizemask := if tables > 1 ∧ d.ht0.sizemask < d.ht1.sizemask then
    d.ht1.sizemask else d.ht0.sizemask
  someKeysLoop d count tables maxsizemask randf (count * 10)
    ⟨randf 0 &&& maxsizemask, 0, 1, []⟩

/-- The C8 counterexample dictionary: a single entry in bucket 0 of an
`ht[0]` of size 64, not rehashing. -/
def c8w : Dict Nat Nat :=
  ⟨⟨([⟨0, 0⟩] : List (DictEntry Nat Nat)) :: List.replicate 63 [], 1⟩,
    ⟨[], 0⟩, -1, 0⟩

/-- The C6 insertion sequence: keys `0..n-1` (pairwise distinct), value 0,
added with default settings (`dict_can_resize` enabled) into a fresh
dictionary. -/
def insertKeys (hash : Nat → Nat) : Nat → Dict Nat Nat
  | 0 => dictCreate Nat Nat
  | n + 1 => (dictAdd hash true (insertKeys hash n) n 0).1

/-- The entries expected after inserting keys `0..n-1` with value 0. -/
def rangeEntries (n : Nat) : Multiset (DictEntry Nat Nat) :=
  ↑((List.range n).map (fun k => (⟨k, 0⟩ : DictEntry Nat Nat)))

/-- The C6 invariant after `n` inserts: the dictionary is well-formed, holds
exactly the entries `(0,0)..(n-1,0)`, has no live iterator, and its table
capacities follow `_dictNextPower`: either not rehashing with
`ht[0].size = _dictNextPower n`, or mid-rehash with `ht[1]` the new table of
size `_dictNextPower n`, `ht[0]` the old table of half that size, and the
rehash cursor at least as far as the number of rehash steps performed since
this rehash started (`n - ht[0].size - 1`). -/
def c6Inv (hash : Nat → Nat) (n : Nat) (d : Dict Nat Nat) : Prop :=
  dictWF hash d ∧ d.iterators = 0 ∧ dictEntriesMS d = rangeEntries n ∧
  ((n = 0 ∧ d = dictCreate Nat Nat) ∨
   (1 ≤ n ∧ ¬ dictIsRehashing d ∧ d.ht0.table.length = _dictNextPower n) ∨
   (1 ≤ n ∧ dictIsRehashing d ∧ d.ht1.table.length = _dictNextPower n ∧
     2 * d.ht0.table.length = _dictNextPower n ∧
     d.ht0.table.length + 1 ≤ n ∧ n ≤ 2 * d.ht0.table.length ∧
     n ≤ d.ht0.table.length + 1 + d.rehashidx.toNat))

/-- The C6 final state: after the `N` inserts, one `dictRehash` call with
`n = ht[0].size` steps, which (the budget of `10·n` empty visits and `n`
bucket migrations covering the whole remaining table) always finishes the
rehash. -/
def c6Final (hash : Nat → Nat) (N : Nat) : Dict Nat Nat :=
  (dictRehash hash (insertKeys hash N) (insertKeys hash N).ht0.table.length).1

/-! ## Theorems -/

theorem nextPowerLoop_ge (size : Nat) :
    ∀ fuel i, 0 < i → size ≤ i * 2 ^ fuel → size ≤ nextPowerLoop size fuel i := by
  intro fuel
  induction fuel with
  | zero =>
    intro i _ hle
    rw [nextPowerLoop]
    simpa using hle
  | succ fuel ih =>
    intro i hi hle
    rw [nextPowerLoop]
    split
    · refine ih (i * 2) (by omega) ?_
      calc size ≤ i * 2 ^ (fuel + 1) := hle
        _ = i * 2 * 2 ^ fuel := by ring
    · omega

theorem nextPowerLoop_lb (size : Nat) :
    ∀ fuel i, i ≤ nextPowerLoop size fuel i := by
  intro fuel
  induction fuel with
  | zero =>
    intro i
    rw [nextPowerLoop]
  | succ fuel ih =>
    intro i
    rw [nextPowerLoop]
    split
    · calc i ≤ i * 2 := by omega
        _ ≤ nextPowerLoop size fuel (i * 2) := ih (i * 2)
    · omega

theorem nextPowerLoop_pow (size : Nat) :
    ∀ fuel i j, i = 2 ^ j → ∃ t, nextPowerLoop size fuel i = 2 ^ t := by
  intro fuel
  induction fuel with
  | zero =>
    intro i j hj
    rw [nextPowerLoop]
    exact ⟨j, hj⟩
  | succ fuel ih =>
    intro i j hj
    rw [nextPowerLoop]
    split
    · exact ih (i * 2) (j + 1) (by rw [hj]; ring)
    · exact ⟨j, hj⟩

theorem nextPowerLoop_min (size : Nat) :
    ∀ fuel i t, i = 2 ^ t → ∀ j, i ≤ 2 ^ j → size ≤ 2 ^ j →
    nextPowerLoop size fuel i ≤ 2 ^ j := by
  intro fuel
  induction fuel with
  | zero =>
    intro i t hi j h1 h2
    rw [nextPowerLoop]
    exact h1
  | succ fuel ih =>
    intro i t hi j h1 h2
    rw [nextPowerLoop]
    split
    · rename_i h
      refine ih (i * 2) (t + 1) (by rw [hi]; ring) j ?_ h2
      have htj : t < j := by
        by_contra hc
        have : 2 ^ j ≤ 2 ^ t := Nat.pow_le_pow_right (by norm_num) (by omega)
        omega
      have : 2 ^ (t + 1) ≤ 2 ^ j := Nat.pow_le_pow_right (by norm_num) (by omega)
      omega
    · exact h1

theorem _dictNextPower_spec (size : Nat) (h : size < LONG_MAX) :
    (∃ t, _dictNextPower size = 2 ^ t) ∧
    size ≤ _dictNextPower size ∧ 4 ≤ _dictNextPower size ∧
    ∀ j, size ≤ 2 ^ j → 4 ≤ 2 ^ j → _dictNextPower size ≤ 2 ^ j := by
  unfold _dictNextPower
  rw [if_neg (by omega)]
  have hfuel : size ≤ 4 * 2 ^ size := by
    have := Nat.lt_two_pow size
    omega
  refine ⟨nextPowerLoop_pow size size 4 2 rfl,
    nextPowerLoop_ge size size 4 (by norm_num) hfuel,
    nextPowerLoop_lb size size 4, fun j h1 h2 => ?_⟩
  exact nextPowerLoop_min size size 4 2 rfl j h2 h1

/-- `_dictNextPower` answers `LONG_MAX` (not a power of two) for a request of
`LONG_MAX` or more. -/
theorem _dictNextPower_longmax : _dictNextPower LONG_MAX = LONG_MAX := by
  unfold _dictNextPower
  rw [if_pos (le_refl _)]

/-- C5 counterexample: requesting `N = LONG_MAX = 2^63 - 1` on a fresh
dictionary succeeds but allocates a table of size `2^63 - 1`, which is not a
power of two (hence not the smallest power of two `≥ N`). -/
theorem c5_counterexample :
    (dictExpand (dictCreate Nat Nat) LONG_MAX).2 = DICT_OK ∧
    (dictExpand (dictCreate Nat Nat) LONG_MAX).1.ht0.size = LONG_MAX ∧
    ¬ ∃ j, LONG_MAX = 2 ^ j := by
  refine ⟨?_, ?_, ?_⟩
  · rw [dictExpand]
    rw [if_neg ?_, _dictNextPower_longmax]
    · rw [if_neg (by decide)]
      rfl
    · decide
  · rw [dictExpand]
    rw [if_neg ?_, _dictNextPower_longmax]
    · rw [if_neg (by decide)]
      simp [dictCreate, resetHt, Dictht.size]
    · decide
  · rintro ⟨j, hj⟩
    rcases j with _ | n
    · revert hj; decide
    · have h2 : 2 ^ (n + 1) = 2 * 2 ^ n := by ring
      have hodd : LONG_MAX % 2 = 1 := by decide
      unfold LONG_MAX at hj
      omega

/-- C5 (amended): for every dictionary and every requested size
`N < LONG_MAX`, `dictExpand` fails iff a rehash is in progress, the live
count exceeds `N`, or the computed size equals the current `ht[0]` size;
on success the allocated table (ht0 on first allocation, ht1 otherwise) has
size `_dictNextPower N`, the smallest power of two that is `≥ N` subject to
the fixed minimum 4. -/
theorem c5_expand_amended {K V : Type} (d : Dict K V) (N : Nat) (hN : N < LONG_MAX) :
    ((dictExpand d N).2 = DICT_ERR ↔
      (dictIsRehashing d ∨ d.ht0.used > N ∨ _dictNextPower N = d.ht0.size)) ∧
    ((dictExpand d N).2 = DICT_OK →
      (if d.ht0.table.isEmpty then (dictExpand d N).1.ht0.size
        else (dictExpand d N).1.ht1.size) = _dictNextPower N ∧
      (∃ t, _dictNextPower N = 2 ^ t) ∧ N ≤ _dictNextPower N ∧
      4 ≤ _dictNextPower N ∧
      ∀ j, N ≤ 2 ^ j → 4 ≤ 2 ^ j → _dictNextPower N ≤ 2 ^ j) := by
  have hspec := _dictNextPower_spec N hN
  constructor
  · rw [dictExpand]
    by_cases h1 : dictIsRehashing d ∨ d.ht0.used > N
    · rw [if_pos h1]
      simp only [DICT_ERR]
      tauto
    · rw [if_neg h1]
      by_cases h2 : _dictNextPower N = d.ht0.size
      · rw [if_pos h2]
        simp only [DICT_ERR]
        tauto
      · rw [if_neg h2]
        split <;> simp only [DICT_OK, DICT_ERR] <;> tauto
  · intro hok
    refine ⟨?_, hspec⟩
    rw [dictExpand] at hok ⊢
    by_cases h1 : dictIsRehashing d ∨ d.ht0.used > N
    · rw [if_pos h1] at hok
      exact absurd hok (by simp [DICT_ERR, DICT_OK])
    · rw [if_neg h1] at hok ⊢
      by_cases h2 : _dictNextPower N = d.ht0.size
      · rw [if_pos h2] at hok
        exact absurd hok (by simp [DICT_ERR, DICT_OK])
      · rw [if_neg h2] at hok ⊢
        by_cases h3 : d.ht0.table.isEmpty
        · rw [if_pos h3]
          simp [h3, Dictht.size]
        · rw [if_neg h3]
          simp [h3, Dictht.size]

/-- Witness for C5's amended theorem at `d = dictCreate`, `N = 10`. -/
theorem c5_expand_amended_witness :
    (10 < LONG_MAX) ∧
    (((dictExpand (dictCreate Nat Nat) 10).2 = DICT_ERR ↔
      (dictIsRehashing (dictCreate Nat Nat) ∨ (dictCreate Nat Nat).ht0.used > 10 ∨
        _dictNextPower 10 = (dictCreate Nat Nat).ht0.size)) ∧
    ((dictExpand (dictCreate Nat Nat) 10).2 = DICT_OK →
      (if (dictCreate Nat Nat).ht0.table.isEmpty then
          (dictExpand (dictCreate Nat Nat) 10).1.ht0.size
        else (dictExpand (dictCreate Nat Nat) 10).1.ht1.size) = _dictNextPower 10 ∧
      (∃ t, _dictNextPower 10 = 2 ^ t) ∧ 10 ≤ _dictNextPower 10 ∧
      4 ≤ _dictNextPower 10 ∧
      ∀ j, 10 ≤ 2 ^ j → 4 ≤ 2 ^ j → _dictNextPower 10 ≤ 2 ^ j)) :=
  ⟨by decide, c5_expand_amended (dictCreate Nat Nat) 10 (by decide)⟩

theorem bucketAt_set_self {α : Type} (t : List (List α)) (i : Nat) (x : List α)
    (h : i < t.length) : bucketAt (t.set i x) i = x := by
  simp [bucketAt, List.getD, List.getElem?_set, h]

theorem bucketAt_set_ne {α : Type} (t : List (List α)) (i j : Nat) (x : List α)
    (h : i ≠ j) : bucketAt (t.set i x) j = bucketAt t j := by
  simp [bucketAt, List.getD, List.getElem?_set, h]

theorem bucketAt_nonempty_lt {α : Type} (t : List (List α)) (i : Nat)
    (h : bucketAt t i ≠ []) : i < t.length := by
  by_contra hc
  have : t.getD i [] = [] := by
    simp [List.getD, List.getElem?_eq_none (by omega : t.length ≤ i)]
  exact h this

theorem length_bucketAt_le {α : Type} (t : List (List α)) (i : Nat) :
    (bucketAt t i).length ≤ t.flatten.length := by
  by_cases h : bucketAt t i = []
  · simp [h]
  · have hi : i < t.length := bucketAt_nonempty_lt t i h
    have hmem : bucketAt t i ∈ t := by
      have : bucketAt t i = t[i] := by simp [bucketAt, List.getD, List.getElem?_eq_getElem hi]
      rw [this]
      exact List.getElem_mem hi
    rw [List.length_flatten]
    exact List.le_sum_of_mem (List.mem_map_of_mem List.length hmem)

/-- Removing the chain at a (valid) bucket index splits the flattened table,
as multisets. -/
theorem flatten_set_nil_ms {α : Type} (t : List (List α)) (i : Nat) (h : i < t.length) :
    (t.flatten : Multiset α) = ↑(bucketAt t i) + ↑((t.set i []).flatten) := by
  induction t generalizing i with
  | nil => simp at h
  | cons hd tl ih =>
    cases i with
    | zero => simp [bucketAt, List.getD]
    | succ j =>
      have hj : j < tl.length := by simpa using h
      have ih' := ih j hj
      show ((hd :: tl).flatten : Multiset α) = ↑(bucketAt tl j) + ↑((hd :: tl.set j []).flatten)
      have hsplit : ∀ (a b : List α), (↑(a ++ b) : Multiset α) = ↑a + ↑b := fun _ _ => rfl
      rw [List.flatten_cons, List.flatten_cons, hsplit, hsplit, ih']
      abel

/-- Pushing an element onto the chain at a (valid) bucket index adds it to
the flattened table, as multisets. -/
theorem flatten_set_cons_ms {α : Type} (t : List (List α)) (i : Nat) (x : α)
    (h : i < t.length) :
    ((t.set i (x :: bucketAt t i)).flatten : Multiset α) = x ::ₘ ↑t.flatten := by
  induction t generalizing i with
  | nil => simp at h
  | cons hd tl ih =>
    cases i with
    | zero => simp [bucketAt, List.getD]
    | succ j =>
      have hj : j < tl.length := by simpa using h
      have ih' := ih j hj
      show ((hd :: tl.set j (x :: bucketAt tl j)).flatten : Multiset α) =
        x ::ₘ ↑((hd :: tl).flatten)
      have hsplit : ∀ (a b : List α), (↑(a ++ b) : Multiset α) = ↑a + ↑b := fun _ _ => rfl
      rw [List.flatten_cons, List.flatten_cons, hsplit, hsplit, ih', Multiset.add_cons]

theorem wellPlacedHt_apply {K V : Type} {hash : K → Nat} {ht : Dictht K V}
    (hp : wellPlacedHt hash ht) (i : Nat) (e : DictEntry K V)
    (he : e ∈ bucketAt ht.table i) :
    dictHashKey hash e.key &&& ht.sizemask = i := by
  have hne : bucketAt ht.table i ≠ [] := by
    intro hnil
    rw [hnil] at he
    exact absurd he (List.not_mem_nil e)
  exact hp i (bucketAt_nonempty_lt _ _ hne) e he

theorem migrateChain_used {K V : Type} (hash : K → Nat)
    (c : List (DictEntry K V)) (ht : Dictht K V) :
    (migrateChain hash c ht).used = ht.used + c.length := by
  induction c generalizing ht with
  | nil => simp [migrateChain]
  | cons e rest ih =>
    rw [migrateChain, ih]
    simp
    omega

theorem migrateChain_length {K V : Type} (hash : K → Nat)
    (c : List (DictEntry K V)) (ht : Dictht K V) :
    (migrateChain hash c ht).table.length = ht.table.length := by
  induction c generalizing ht with
  | nil => rfl
  | cons e rest ih =>
    rw [migrateChain, ih]
    simp

theorem migrateChain_ms {K V : Type} (hash : K → Nat)
    (c : List (DictEntry K V)) (ht : Dictht K V) (h : 0 < ht.table.length) :
    ((migrateChain hash c ht).table.flatten : Multiset (DictEntry K V)) =
      ↑c + ↑ht.table.flatten := by
  induction c generalizing ht with
  | nil => simp [migrateChain]
  | cons e rest ih =>
    rw [migrateChain]
    have hb : dictHashKey hash e.key &&& ht.sizemask < ht.table.length := by
      have h1 : dictHashKey hash e.key &&& ht.sizemask ≤ ht.sizemask :=
        Nat.and_le_right
      have h2 : ht.sizemask = ht.table.length - 1 := rfl
      omega
    rw [ih _ (by simpa using h)]
    rw [flatten_set_cons_ms ht.table _ e hb, Multiset.add_cons]
    rfl

theorem migrateChain_placed {K V : Type} (hash : K → Nat)
    (c : List (DictEntry K V)) (ht : Dictht K V) (hp : wellPlacedHt hash ht) :
    wellPlacedHt hash (migrateChain hash c ht) := by
  induction c generalizing ht with
  | nil => exact hp
  | cons e rest ih =>
    rw [migrateChain]
    refine ih _ ?_
    intro i hi e' he'
    have hlen : (ht.table.set (dictHashKey hash e.key &&& ht.sizemask)
        (e :: bucketAt ht.table (dictHashKey hash e.key &&& ht.sizemask))).length =
        ht.table.length := by simp
    have hi' : i < ht.table.length := by
      simpa [hlen] using hi
    have hmask : (Dictht.sizemask
        ⟨ht.table.set (dictHashKey hash e.key &&& ht.sizemask)
          (e :: bucketAt ht.table (dictHashKey hash e.key &&& ht.sizemask)),
          ht.used + 1⟩ : Nat) = ht.sizemask := by
      simp [Dictht.sizemask]
    by_cases hcase : dictHashKey hash e.key &&& ht.sizemask = i
    · rw [← hcase] at he' ⊢
      rw [bucketAt_set_self _ _ _ (by omega : dictHashKey hash e.key &&& ht.sizemask < ht.table.length)] at he'
      rw [hmask]
      rcases List.mem_cons.mp he' with h1 | h2
      · rw [h1]
      · exact wellPlacedHt_apply hp _ e' h2
    · rw [bucketAt_set_ne _ _ _ _ hcase] at he'
      rw [hmask]
      exact wellPlacedHt_apply hp i e' he'

theorem skipEmpty_spec {K V : Type} (t : List (List (DictEntry K V))) :
    ∀ ev idx, 0 < ev →
    ((∀ j, idx ≤ j → j < (skipEmpty t idx ev).1 → bucketAt t j = []) ∧
      idx ≤ (skipEmpty t idx ev).1 ∧
      (skipEmpty t idx ev).1 ≤ idx + ev ∧
      ((skipEmpty t idx ev).2.2 = true →
        bucketAt t (skipEmpty t idx ev).1 ≠ [] ∧
        0 < (skipEmpty t idx ev).2.1 ∧
        (skipEmpty t idx ev).1 + (skipEmpty t idx ev).2.1 = idx + ev)) := by
  intro ev
  induction ev using Nat.strong_induction_on with
  | _ ev ih =>
    intro idx hev
    rcases ev with _ | _ | ev2
    · omega
    · simp only [skipEmpty]
      by_cases hb : (bucketAt t idx).isEmpty
      · rw [if_pos hb]
        refine ⟨?_, by omega, by omega, by simp⟩
        intro j h1 h2
        have hj : j = idx := by omega
        rw [hj]
        exact List.isEmpty_iff.mp hb
      · rw [if_neg hb]
        refine ⟨?_, ?_, ?_, fun _ => ⟨?_, ?_, ?_⟩⟩
        · intro j h1 h2
          have h2' : j < idx := h2
          omega
        · show idx ≤ idx
          omega
        · show idx ≤ idx + 1
          omega
        · intro hnil
          rw [hnil] at hb
          exact hb (by simp)
        · show (0 : Nat) < 1
          omega
        · show idx + 1 = idx + 1
          rfl
    · simp only [skipEmpty]
      by_cases hb : (bucketAt t idx).isEmpty
      · rw [if_pos hb]
        have hrec := ih (ev2 + 1) (by omega) (idx + 1) (by omega)
        refine ⟨?_, by omega, by omega, ?_⟩
        · intro j h1 h2
          by_cases hj : j = idx
          · rw [hj]
            exact List.isEmpty_iff.mp hb
          · exact hrec.1 j (by omega) h2
        · intro hf
          have hh := hrec.2.2.2 hf
          exact ⟨hh.1, hh.2.1, by omega⟩
      · rw [if_neg hb]
        refine ⟨?_, ?_, ?_, fun _ => ⟨?_, ?_, ?_⟩⟩
        · intro j h1 h2
          have h2' : j < idx := h2
          omega
        · show idx ≤ idx
          omega
        · show idx ≤ idx + (ev2 + 2)
          omega
        · intro hnil
          rw [hnil] at hb
          exact hb (by simp)
        · show (0 : Nat) < ev2 + 2
          omega
        · show idx + (ev2 + 2) = idx + (ev2 + 2)
          rfl

theorem skipEmpty_eq_spec {K V : Type} (t : List (List (DictEntry K V)))
    (ev idx0 : Nat) (hev : 0 < ev) (idx ev' : Nat) (found : Bool)
    (heq : skipEmpty t idx0 ev = (idx, ev', found)) :
    (∀ j, idx0 ≤ j → j < idx → bucketAt t j = []) ∧ idx0 ≤ idx ∧
    idx ≤ idx0 + ev ∧
    (found = true → bucketAt t idx ≠ [] ∧ 0 < ev' ∧ idx + ev' = idx0 + ev) := by
  have h := skipEmpty_spec t ev idx0 hev
  rw [heq] at h
  exact h

theorem completeCheck_spec {K V : Type} (hash : K → Nat) (d : Dict K V) (b : Nat)
    (hreh : d.rehashidx ≠ -1)
    (hc0 : htConsistent d.ht0) (hc1 : htConsistent d.ht1)
    (hp0 : wellPlacedHt hash d.ht0) (hp1 : wellPlacedHt hash d.ht1)
    (hbelow : emptyBelow d) :
    rehashStepOK hash d b (dictRehashCompleteCheck d) := by
  unfold dictRehashCompleteCheck
  by_cases h0 : d.ht0.used = 0
  · rw [if_pos h0]
    have hflat : d.ht0.table.flatten = [] := by
      unfold htConsistent at hc0
      exact List.length_eq_zero.mp (by omega)
    refine ⟨?_, ?_, hc1, ?_, hp1, ?_, Or.inl rfl, by simp, ?_, ?_, rfl⟩
    · show d.ht1.used + (0 : Nat) = d.ht0.used + d.ht1.used
      omega
    · show (↑(d.ht1.table.flatten ++ ([] : List (List (DictEntry K V))).flatten) :
        Multiset (DictEntry K V)) = ↑(d.ht0.table.flatten ++ d.ht1.table.flatten)
      rw [hflat]
      simp
    · show (0 : Nat) = ([] : List (List (DictEntry K V))).flatten.length
      rfl
    · intro i hi
      simp [resetHt] at hi
    · intro _
      refine ⟨rfl, ?_, rfl⟩
      show d.ht1.used = d.ht0.used + d.ht1.used
      omega
    · intro h
      simp at h
  · rw [if_neg h0]
    refine ⟨rfl, rfl, hc0, hc1, hp0, hp1, Or.inr rfl, ?_, ?_, ?_, rfl⟩
    · constructor
      · intro h
        simp at h
      · intro h
        exact absurd h hreh
    · intro h
      simp at h
    · intro _
      refine ⟨le_refl _, ?_, rfl, rfl, hbelow⟩
      show d.rehashidx.toNat ≤ d.rehashidx.toNat + b
      omega

theorem dictRehashLoop_spec {K V : Type} (hash : K → Nat) :
    ∀ (n ev : Nat) (d : Dict K V), 0 < ev →
    d.rehashidx ≠ -1 → 0 ≤ d.rehashidx → 0 < d.ht1.table.length →
    htConsistent d.ht0 → htConsistent d.ht1 →
    wellPlacedHt hash d.ht0 → wellPlacedHt hash d.ht1 → emptyBelow d →
    rehashStepOK hash d (ev + n) (dictRehashLoop hash n ev d) := by
  intro n
  induction n with
  | zero =>
    intro ev d hev hreh hidx h1len hc0 hc1 hp0 hp1 hbelow
    exact completeCheck_spec hash d (ev + 0) hreh hc0 hc1 hp0 hp1 hbelow
  | succ n ihn =>
    intro ev d hev hreh hidx h1len hc0 hc1 hp0 hp1 hbelow
    show rehashStepOK hash d (ev + (n + 1)) (dictRehashLoop hash (n + 1) ev d)
    simp only [dictRehashLoop]
    by_cases h0 : d.ht0.used = 0
    · rw [if_pos h0]
      exact completeCheck_spec hash d (ev + (n + 1)) hreh hc0 hc1 hp0 hp1 hbelow
    · rw [if_neg h0]
      rcases hsp : skipEmpty d.ht0.table d.rehashidx.toNat ev with ⟨idx, ev', found⟩
      obtain ⟨hskempty, hskge, hskle, hsktrue⟩ :=
        skipEmpty_eq_spec d.ht0.table ev d.rehashidx.toNat hev idx ev' found hsp
      cases found with
      | false =>
        show rehashStepOK hash d (ev + (n + 1))
          ({ d with rehashidx := ((idx : Nat) : Int) }, 1)
        refine ⟨rfl, rfl, hc0, hc1, hp0, hp1, Or.inr rfl, ?_, ?_, ?_, rfl⟩
        · constructor
          · intro h
            simp at h
          · intro h
            have h' : ((idx : Nat) : Int) = -1 := h
            omega
        · intro h
          simp at h
        · intro _
          refine ⟨?_, ?_, rfl, rfl, ?_⟩
          · show d.rehashidx ≤ ((idx : Nat) : Int)
            omega
          · show ((idx : Nat) : Int).toNat ≤ d.rehashidx.toNat + (ev + (n + 1))
            omega
          · intro j hj
            have hj' : j < ((idx : Nat) : Int).toNat := hj
            have hj'' : j < idx := by omega
            show bucketAt d.ht0.table j = []
            by_cases hj0 : j < d.rehashidx.toNat
            · exact hbelow j hj0
            · exact hskempty j (by omega) hj''
      | true =>
        obtain ⟨hbne, hev', hsum⟩ := hsktrue rfl
        have hidxlt : idx < d.ht0.table.length := bucketAt_nonempty_lt _ _ hbne
        show rehashStepOK hash d (ev + (n + 1))
          (dictRehashLoop hash n ev'
            { d with
              ht0 := ⟨d.ht0.table.set idx [],
                d.ht0.used - (bucketAt d.ht0.table idx).length⟩,
              ht1 := migrateChain hash (bucketAt d.ht0.table idx) d.ht1,
              rehashidx := ((idx + 1 : Nat) : Int) })
        have hflatsplit := flatten_set_nil_ms d.ht0.table idx hidxlt
        have hlensplit : d.ht0.table.flatten.length =
            (bucketAt d.ht0.table idx).length + (d.ht0.table.set idx []).flatten.length := by
          have hcard := congrArg Multiset.card hflatsplit
          simpa using hcard
        have hchainle : (bucketAt d.ht0.table idx).length ≤ d.ht0.used := by
          unfold htConsistent at hc0
          have := length_bucketAt_le d.ht0.table idx
          omega
        set chain := bucketAt d.ht0.table idx with hchain
        set d' : Dict K V := { d with
          ht0 := ⟨d.ht0.table.set idx [], d.ht0.used - chain.length⟩,
          ht1 := migrateChain hash chain d.ht1,
          rehashidx := ((idx + 1 : Nat) : Int) } with hd'
        have hmiglen : (migrateChain hash chain d.ht1).table.length = d.ht1.table.length :=
          migrateChain_length hash chain d.ht1
        have hmigms := migrateChain_ms hash chain d.ht1 h1len
        have hmiglensum : (migrateChain hash chain d.ht1).table.flatten.length =
            chain.length + d.ht1.table.flatten.length := by
          have hcard := congrArg Multiset.card hmigms
          simpa using hcard
        have hc0' : htConsistent d'.ht0 := by
          show d.ht0.used - chain.length = (d.ht0.table.set idx []).flatten.length
          unfold htConsistent at hc0
          omega
        have hc1' : htConsistent d'.ht1 := by
          show (migrateChain hash chain d.ht1).used =
            (migrateChain hash chain d.ht1).table.flatten.length
          rw [migrateChain_used, hmiglensum]
          unfold htConsistent at hc1
          omega
        have hp0' : wellPlacedHt hash d'.ht0 := by
          intro i hi e he
          have hi' : i < d.ht0.table.length := by
            simpa using hi
          by_cases hcase : i = idx
          · rw [hcase] at he
            rw [show d'.ht0.table = d.ht0.table.set idx [] from rfl] at he
            rw [bucketAt_set_self _ _ _ hidxlt] at he
            exact absurd he (List.not_mem_nil e)
          · rw [show d'.ht0.table = d.ht0.table.set idx [] from rfl] at he
            rw [bucketAt_set_ne _ _ _ _ (fun h => hcase h.symm)] at he
            have := hp0 i hi' e he
            rw [show d'.ht0.sizemask = d.ht0.sizemask from by
              simp [Dictht.sizemask]]
            exact this
        have hp1' : wellPlacedHt hash d'.ht1 := migrateChain_placed hash chain d.ht1 hp1
        have hbelow' : emptyBelow d' := by
          intro j hj
          have hj' : j < idx + 1 := by simpa using hj
          show bucketAt (d.ht0.table.set idx []) j = []
          by_cases hcase : j = idx
          · rw [hcase]
            exact bucketAt_set_self _ _ _ hidxlt
          · rw [bucketAt_set_ne _ _ _ _ (fun h => hcase h.symm)]
            by_cases hj0 : j < d.rehashidx.toNat
            · exact hbelow j hj0
            · exact hskempty j (by omega) (by omega)
        have hreh' : d'.rehashidx ≠ -1 := by
          show ((idx + 1 : Nat) : Int) ≠ -1
          omega
        have hidx' : 0 ≤ d'.rehashidx := by
          show (0 : Int) ≤ ((idx + 1 : Nat) : Int)
          omega
        have h1len' : 0 < d'.ht1.table.length := by
          have hl : d'.ht1.table.length = d.ht1.table.length := hmiglen
          omega
        have ih := ihn ev' d' hev' hreh' hidx' h1len' hc0' hc1' hp0' hp1' hbelow'
        obtain ⟨i1, i2, i3, i4, i5, i6, i7, i8, i9, i10, i11⟩ := ih
        have T1 : dictSize d' = dictSize d := by
          unfold dictSize
          show d.ht0.used - chain.length + (migrateChain hash chain d.ht1).used =
            d.ht0.used + d.ht1.used
          rw [migrateChain_used]
          omega
        have T2 : dictEntriesMS d' = dictEntriesMS d := by
          unfold dictEntriesMS
          have hs : ∀ (a b : List (DictEntry K V)), (↑(a ++ b) : Multiset (DictEntry K V)) = ↑a + ↑b :=
            fun _ _ => rfl
          show (↑((d.ht0.table.set idx []).flatten ++ (migrateChain hash chain d.ht1).table.flatten) :
            Multiset (DictEntry K V)) = _
          rw [hs, hs, hmigms, hflatsplit]
          abel
        refine ⟨i1.trans T1, i2.trans T2, i3, i4, i5, i6, i7, i8, ?_, ?_, i11⟩
        · intro h
          obtain ⟨j1, j2, j3⟩ := i9 h
          refine ⟨j1, j2.trans T1, ?_⟩
          rw [j3]
          exact hmiglen
        · intro h
          obtain ⟨j1, j2, j3, j4, j5⟩ := i10 h
          refine ⟨?_, ?_, ?_, ?_, j5⟩
          · have : d.rehashidx ≤ d'.rehashidx := by
              show d.rehashidx ≤ ((idx + 1 : Nat) : Int)
              omega
            exact this.trans j1
          · have hd'idx : d'.rehashidx.toNat = idx + 1 := by
              show ((idx + 1 : Nat) : Int).toNat = idx + 1
              omega
            rw [hd'idx] at j2
            omega
          · rw [j3]
            show (d.ht0.table.set idx []).length = d.ht0.table.length
            simp
          · rw [j4]
            exact hmiglen

/-- Claim C3: one call `dictRehash(d, n)` on a rehashing dictionary (n > 0)
migrates chains of non-empty `ht[0]` buckets into `ht[1]` — conserving the
entry multiset and the total used count, re-linking every entry at
`hash(key) & ht[1].sizemask` (the placement invariant is preserved), with
per-entry `used` bookkeeping (counter consistency is preserved) — clears the
migrated buckets and advances `rehashidx` by at most `10·n` empty visits
plus `n` migrated buckets, returning 1 while work remains; and when
`ht[0].used` reaches 0 it frees `ht[0]`, moves `ht[1]` into its place,
resets `ht[1]`, restores the -1 sentinel and returns 0. -/
theorem c3_dictRehash {K V : Type} (hash : K → Nat) (d : Dict K V) (n : Nat)
    (hreh : dictIsRehashing d) (hn : 1 ≤ n) (hidx : 0 ≤ d.rehashidx)
    (h1len : 0 < d.ht1.table.length)
    (hc0 : htConsistent d.ht0) (hc1 : htConsistent d.ht1)
    (hp0 : wellPlacedHt hash d.ht0) (hp1 : wellPlacedHt hash d.ht1)
    (hbelow : emptyBelow d) :
    dictSize (dictRehash hash d n).1 = dictSize d ∧
    dictEntriesMS (dictRehash hash d n).1 = dictEntriesMS d ∧
    htConsistent (dictRehash hash d n).1.ht0 ∧
    htConsistent (dictRehash hash d n).1.ht1 ∧
    wellPlacedHt hash (dictRehash hash d n).1.ht0 ∧
    wellPlacedHt hash (dictRehash hash d n).1.ht1 ∧
    ((dictRehash hash d n).2 = 0 ∨ (dictRehash hash d n).2 = 1) ∧
    ((dictRehash hash d n).2 = 0 ↔ ¬ dictIsRehashing (dictRehash hash d n).1) ∧
    ((dictRehash hash d n).2 = 0 →
      (dictRehash hash d n).1.ht1 = resetHt K V ∧
      (dictRehash hash d n).1.rehashidx = -1 ∧
      (dictRehash hash d n).1.ht0.used = dictSize d) ∧
    ((dictRehash hash d n).2 = 1 →
      dictIsRehashing (dictRehash hash d n).1 ∧
      d.rehashidx ≤ (dictRehash hash d n).1.rehashidx ∧
      (dictRehash hash d n).1.rehashidx.toNat ≤ d.rehashidx.toNat + 10 * n + n) := by
  have hloop := dictRehashLoop_spec hash n (n * 10) d (by omega) hreh hidx h1len
    hc0 hc1 hp0 hp1 hbelow
  have heq : dictRehash hash d n = dictRehashLoop hash n (n * 10) d := by
    unfold dictRehash
    rw [if_pos hreh]
  rw [heq]
  obtain ⟨i1, i2, i3, i4, i5, i6, i7, i8, i9, i10, _⟩ := hloop
  refine ⟨i1, i2, i3, i4, i5, i6, i7, ?_, ?_, ?_⟩
  · rw [i8]
    unfold dictIsRehashing
    exact not_not.symm
  · intro h
    obtain ⟨j1, j2, _⟩ := i9 h
    exact ⟨j1, i8.mp h, j2⟩
  · intro h
    obtain ⟨j1, j2, _, _, _⟩ := i10 h
    refine ⟨?_, j1, by omega⟩
    intro hcon
    have := i8.mpr hcon
    omega

/-- Witness for claim C3 at the concrete rehashing dictionary `rehashingW`
with `n = 1`. -/
theorem c3_dictRehash_witness :
    dictSize (dictRehash idHash rehashingW 1).1 = dictSize rehashingW ∧
    dictEntriesMS (dictRehash idHash rehashingW 1).1 = dictEntriesMS rehashingW ∧
    htConsistent (dictRehash idHash rehashingW 1).1.ht0 ∧
    htConsistent (dictRehash idHash rehashingW 1).1.ht1 ∧
    wellPlacedHt idHash (dictRehash idHash rehashingW 1).1.ht0 ∧
    wellPlacedHt idHash (dictRehash idHash rehashingW 1).1.ht1 ∧
    ((dictRehash idHash rehashingW 1).2 = 0 ∨ (dictRehash idHash rehashingW 1).2 = 1) ∧
    ((dictRehash idHash rehashingW 1).2 = 0 ↔
      ¬ dictIsRehashing (dictRehash idHash rehashingW 1).1) ∧
    ((dictRehash idHash rehashingW 1).2 = 0 →
      (dictRehash idHash rehashingW 1).1.ht1 = resetHt Nat Nat ∧
      (dictRehash idHash rehashingW 1).1.rehashidx = -1 ∧
      (dictRehash idHash rehashingW 1).1.ht0.used = dictSize rehashingW) ∧
    ((dictRehash idHash rehashingW 1).2 = 1 →
      dictIsRehashing (dictRehash idHash rehashingW 1).1 ∧
      rehashingW.rehashidx ≤ (dictRehash idHash rehashingW 1).1.rehashidx ∧
      (dictRehash idHash rehashingW 1).1.rehashidx.toNat ≤
        rehashingW.rehashidx.toNat + 10 * 1 + 1) :=
  c3_dictRehash idHash rehashingW 1 (by decide) (by decide) (by decide) (by decide)
    (by decide) (by decide) (by decide) (by decide) (by decide)

/-- Claim C4: while the live safe-iterator count is positive, the internal
rehash step `_dictRehashStep` is a complete no-op (the dictionary — both
tables, their sizes and used counts, and `rehashidx` — is unchanged), and
consequently a `dictFind` leaves the dictionary state untouched. -/
theorem c4_safe_iterators_block_rehash {K V : Type} [DecidableEq K]
    (hash : K → Nat) (d : Dict K V) (h : 0 < d.iterators) :
    _dictRehashStep hash d = d ∧ ∀ key : K, (dictFind hash d key).1 = d := by
  have hstep : _dictRehashStep hash d = d := by
    unfold _dictRehashStep
    rw [if_neg (by omega)]
  refine ⟨hstep, fun key => ?_⟩
  unfold dictFind
  by_cases h0 : d.ht0.size = 0
  · rw [if_pos h0]
  · rw [if_neg h0]
    simp only [hstep, ite_self]
    split
    · rfl
    · split
      · rfl
      · rfl

/-- Witness for claim C4 at the concrete dictionary `iteratingW` (rehashing,
one live safe iterator) and key 7. -/
theorem c4_safe_iterators_block_rehash_witness :
    _dictRehashStep idHash iteratingW = iteratingW ∧
    (dictFind idHash iteratingW 7).1 = iteratingW :=
  ⟨(c4_safe_iterators_block_rehash idHash iteratingW (by decide)).1,
    (c4_safe_iterators_block_rehash idHash iteratingW (by decide)).2 7⟩

theorem replicate_nil_flatten {α : Type} (n : Nat) :
    (List.replicate n ([] : List α)).flatten = [] := by
  induction n with
  | zero => rfl
  | succ n ih => simp [List.replicate_succ, ih]

theorem bucketAt_replicate_nil {α : Type} (n i : Nat) :
    bucketAt (List.replicate n ([] : List α)) i = [] := by
  simp [bucketAt, List.getD, List.getElem?_replicate]
  split <;> rfl

theorem _dictNextPower_pos (size : Nat) : 0 < _dictNextPower size := by
  unfold _dictNextPower
  split
  · decide
  · have hlb := nextPowerLoop_lb size size DICT_HT_INITIAL_SIZE
    have h4 : DICT_HT_INITIAL_SIZE = 4 := rfl
    omega

/-- `_dictRehashStep` conserves the entry multiset, the total used count and
structural well-formedness. -/
theorem rehashStep_spec {K V : Type} (hash : K → Nat) (d : Dict K V)
    (hwf : dictWF hash d) :
    dictSize (_dictRehashStep hash d) = dictSize d ∧
    dictEntriesMS (_dictRehashStep hash d) = dictEntriesMS d ∧
    dictWF hash (_dictRehashStep hash d) ∧
    (_dictRehashStep hash d).iterators = d.iterators := by
  obtain ⟨hc0, hc1, hp0, hp1, hbelow, hrehimp, hnrimp⟩ := hwf
  unfold _dictRehashStep
  by_cases hit : d.iterators = 0
  · rw [if_pos hit]
    unfold dictRehash
    by_cases hr : dictIsRehashing d
    · rw [if_pos hr]
      obtain ⟨hidx, h1len⟩ := hrehimp hr
      have hloop := dictRehashLoop_spec hash 1 (1 * 10) d (by omega) hr hidx h1len
        hc0 hc1 hp0 hp1 hbelow
      obtain ⟨i1, i2, i3, i4, i5, i6, i7, i8, i9, i10, i11⟩ := hloop
      refine ⟨i1, i2, ⟨i3, i4, i5, i6, ?_, ?_, ?_⟩, i11⟩
      · rcases i7 with h | h
        · have hridx := i8.mp h
          intro j hj
          rw [hridx] at hj
          simp at hj
        · exact (i10 h).2.2.2.2
      · intro hreh'
        rcases i7 with h | h
        · exact absurd (i8.mp h) hreh'
        · obtain ⟨j1, _, _, j4, _⟩ := i10 h
          refine ⟨by omega, by omega⟩
      · intro hnr'
        rcases i7 with h | h
        · exact (i9 h).1
        · exfalso
          obtain ⟨j1, _, _, _, _⟩ := i10 h
          have hm1 : (dictRehashLoop hash 1 (1 * 10) d).1.rehashidx = -1 :=
            not_not.mp hnr'
          omega
    · rw [if_neg hr]
      exact ⟨rfl, rfl, ⟨hc0, hc1, hp0, hp1, hbelow, hrehimp, hnrimp⟩, rfl⟩
  · rw [if_neg hit]
    exact ⟨rfl, rfl, ⟨hc0, hc1, hp0, hp1, hbelow, hrehimp, hnrimp⟩, rfl⟩

/-- `dictExpand` conserves the entry multiset, the total used count and
structural well-formedness. -/
theorem dictExpand_spec {K V : Type} (hash : K → Nat) (d : Dict K V) (size : Nat)
    (hwf : dictWF hash d) :
    dictSize (dictExpand d size).1 = dictSize d ∧
    dictEntriesMS (dictExpand d size).1 = dictEntriesMS d ∧
    dictWF hash (dictExpand d size).1 ∧
    (dictExpand d size).1.iterators = d.iterators := by
  obtain ⟨hc0, hc1, hp0, hp1, hbelow, hrehimp, hnrimp⟩ := hwf
  unfold dictExpand
  by_cases h1 : dictIsRehashing d ∨ d.ht0.used > size
  · rw [if_pos h1]
    exact ⟨rfl, rfl, ⟨hc0, hc1, hp0, hp1, hbelow, hrehimp, hnrimp⟩, rfl⟩
  · rw [if_neg h1]
    push_neg at h1
    obtain ⟨hnr, _⟩ := h1
    by_cases h2 : _dictNextPower size = d.ht0.size
    · rw [if_pos h2]
      exact ⟨rfl, rfl, ⟨hc0, hc1, hp0, hp1, hbelow, hrehimp, hnrimp⟩, rfl⟩
    · rw [if_neg h2]
      have hreset := hnrimp hnr
      have hnr' : d.rehashidx = -1 := not_not.mp hnr
      by_cases h3 : d.ht0.table.isEmpty
      · rw [if_pos h3]
        have htnil : d.ht0.table = [] := by
          cases hh : d.ht0.table
          · rfl
          · rw [hh] at h3
            simp [List.isEmpty] at h3
        have hu0 : d.ht0.used = 0 := by
          unfold htConsistent at hc0
          rw [htnil] at hc0
          simpa using hc0
        refine ⟨?_, ?_, ⟨?_, hc1, ?_, hp1, ?_, ?_, ?_⟩, rfl⟩
        · show 0 + d.ht1.used = d.ht0.used + d.ht1.used
          omega
        · show (↑((List.replicate (_dictNextPower size) ([] : List (DictEntry K V))).flatten
            ++ d.ht1.table.flatten) : Multiset (DictEntry K V)) =
            ↑(d.ht0.table.flatten ++ d.ht1.table.flatten)
          rw [replicate_nil_flatten, htnil]
          rfl
        · show (0 : Nat) =
            (List.replicate (_dictNextPower size) ([] : List (DictEntry K V))).flatten.length
          rw [replicate_nil_flatten]
          rfl
        · intro i _ e he
          rw [show bucketAt (List.replicate (_dictNextPower size)
              ([] : List (DictEntry K V))) i = [] from bucketAt_replicate_nil _ i] at he
          exact absurd he (List.not_mem_nil e)
        · intro j hj
          have hj' : j < d.rehashidx.toNat := hj
          have hz : d.rehashidx.toNat = 0 := by
            rw [hnr']
            rfl
          omega
        · intro hcon
          exact absurd (show d.rehashidx = -1 from hnr') hcon
        · intro _
          exact hreset
      · rw [if_neg h3]
        have hu1 : d.ht1.used = 0 := by
          rw [hreset]
          rfl
        have hflat1 : d.ht1.table.flatten = [] := by
          rw [hreset]
          rfl
        refine ⟨?_, ?_, ⟨hc0, ?_, hp0, ?_, ?_, ?_, ?_⟩, rfl⟩
        · show d.ht0.used + 0 = d.ht0.used + d.ht1.used
          omega
        · show (↑(d.ht0.table.flatten ++
            (List.replicate (_dictNextPower size) ([] : List (DictEntry K V))).flatten) :
            Multiset (DictEntry K V)) = ↑(d.ht0.table.flatten ++ d.ht1.table.flatten)
          rw [replicate_nil_flatten, hflat1]
        · show (0 : Nat) =
            (List.replicate (_dictNextPower size) ([] : List (DictEntry K V))).flatten.length
          rw [replicate_nil_flatten]
          rfl
        · intro i _ e he
          rw [show bucketAt (List.replicate (_dictNextPower size)
              ([] : List (DictEntry K V))) i = [] from bucketAt_replicate_nil _ i] at he
          exact absurd he (List.not_mem_nil e)
        · intro j hj
          have hz : ((0 : Int)).toNat = 0 := rfl
          have : j < 0 := by
            have hj' : j < ((0 : Int)).toNat := hj
            omega
          omega
        · intro _
          refine ⟨le_refl _, ?_⟩
          show 0 < (List.replicate (_dictNextPower size) ([] : List (DictEntry K V))).length
          rw [List.length_replicate]
          exact _dictNextPower_pos size
        · intro hcon
          exfalso
          exact hcon (show ((0 : Int)) ≠ -1 by omega)

/-- `_dictExpandIfNeeded` conserves the entry multiset, the total used count
and structural well-formedness. -/
theorem expandIfNeeded_spec {K V : Type} (hash : K → Nat) (canResize : Bool)
    (d : Dict K V) (hwf : dictWF hash d) :
    dictSize (_dictExpandIfNeeded canResize d).1 = dictSize d ∧
    dictEntriesMS (_dictExpandIfNeeded canResize d).1 = dictEntriesMS d ∧
    dictWF hash (_dictExpandIfNeeded canResize d).1 ∧
    (_dictExpandIfNeeded canResize d).1.iterators = d.iterators := by
  unfold _dictExpandIfNeeded
  by_cases h1 : dictIsRehashing d
  · rw [if_pos h1]
    exact ⟨rfl, rfl, hwf, rfl⟩
  · rw [if_neg h1]
    by_cases h2 : d.ht0.size = 0
    · rw [if_pos h2]
      exact dictExpand_spec hash d DICT_HT_INITIAL_SIZE hwf
    · rw [if_neg h2]
      by_cases h3 : d.ht0.used ≥ d.ht0.size ∧
          (canResize = true ∨ d.ht0.used / d.ht0.size > dict_force_resize_ratio)
      · rw [if_pos h3]
        exact dictExpand_spec hash d (d.ht0.used * 2) hwf
      · rw [if_neg h3]
        exact ⟨rfl, rfl, hwf, rfl⟩

/-- `_dictKeyIndex` returns the dictionary produced by its capacity check,
unchanged. -/
theorem keyIndex_fst {K V : Type} [DecidableEq K] (hash : K → Nat)
    (canResize : Bool) (d : Dict K V) (key : K) :
    (_dictKeyIndex hash canResize d key).1 = (_dictExpandIfNeeded canResize d).1 := by
  unfold _dictKeyIndex
  rcases h : _dictExpandIfNeeded canResize d with ⟨d2, code⟩
  dsimp only []
  by_cases hc : code = DICT_ERR
  · rw [if_pos hc]
  · rw [if_neg hc]
    split
    · rfl
    · split
      · split
        · rfl
        · rfl
      · rfl

/-- Claim C9: with string keys/values (modelled as byte lists under the
MurmurHash2 string hash): after inserting ("a","1"), `add("a","2")` is
rejected as a duplicate, `replace("a","2")` succeeds reporting "replaced"
(result 0), `fetchValue("a")` then returns "2", `delete("a")` succeeds, and
a subsequent `find("a")` reports absent. -/
theorem c9_concrete_scenario :
    (dictAdd dictGenHashFunction true (dictCreate (List Nat) (List Nat))
      [97] [49]).2 = DICT_OK ∧
    (dictAdd dictGenHashFunction true c9d1 [97] [50]).2 = DICT_ERR ∧
    (dictReplace dictGenHashFunction true c9d1 [97] [50]).2 = 0 ∧
    (dictFetchValue dictGenHashFunction c9d3 [97]).2 = some [50] ∧
    (dictDelete dictGenHashFunction c9d3 [97]).2 = DICT_OK ∧
    (dictFind dictGenHashFunction c9d4 [97]).2 = none := by
  refine ⟨?_, ?_, ?_, ?_, ?_, ?_⟩ <;> decide

/-- C10 counterexample: on the well-formed rehashing dictionary `c10w`,
`add(0, 99)` fails with the duplicate outcome but its internal rehash step
migrates a bucket, so both tables' individual `used` counts change (only
their sum, `dictSize`, is unchanged). -/
theorem c10_counterexample :
    dictWF idHash c10w ∧
    (dictAdd idHash true c10w 0 99).2 = DICT_ERR ∧
    (dictAdd idHash true c10w 0 99).1.ht0.used ≠ c10w.ht0.used ∧
    (dictAdd idHash true c10w 0 99).1.ht1.used ≠ c10w.ht1.used ∧
    dictSize (dictAdd idHash true c10w 0 99).1 = dictSize c10w :=
  ⟨⟨by decide, by decide, by decide, by decide, by decide, by decide, by decide⟩,
    by decide, by decide, by decide, by decide⟩

/-- Claim C10 (amended): for every well-formed dictionary, a failing
`dictAdd` leaves the total live entry count `dictSize` unchanged — even
though it may still perform one rehash step (which can move entries between
the two tables' individual `used` counts, as the counterexample shows) and
may trigger an automatic capacity expansion that starts a rehash. -/
theorem c10_failing_add_preserves_dictSize {K V : Type} [DecidableEq K]
    (hash : K → Nat) (canResize : Bool) (d : Dict K V) (key : K) (val : V)
    (hwf : dictWF hash d)
    (herr : (dictAdd hash canResize d key val).2 = DICT_ERR) :
    dictSize (dictAdd hash canResize d key val).1 = dictSize d := by
  have hstep : dictSize (if dictIsRehashing d then _dictRehashStep hash d else d) =
      dictSize d ∧
      dictWF hash (if dictIsRehashing d then _dictRehashStep hash d else d) := by
    by_cases hr : dictIsRehashing d
    · rw [if_pos hr]
      exact ⟨(rehashStep_spec hash d hwf).1, (rehashStep_spec hash d hwf).2.2.1⟩
    · rw [if_neg hr]
      exact ⟨rfl, hwf⟩
  unfold dictAdd at herr ⊢
  dsimp only [] at herr ⊢
  rcases hki : _dictKeyIndex hash canResize
      (if dictIsRehashing d then _dictRehashStep hash d else d) key with ⟨d3, o⟩
  rw [hki] at herr
  have hfst : d3 = (_dictExpandIfNeeded canResize
      (if dictIsRehashing d then _dictRehashStep hash d else d)).1 := by
    have := keyIndex_fst hash canResize
      (if dictIsRehashing d then _dictRehashStep hash d else d) key
    rw [hki] at this
    exact this
  rcases o with _ | idx
  · show dictSize d3 = dictSize d
    rw [hfst]
    rw [(expandIfNeeded_spec hash canResize _ hstep.2).1]
    exact hstep.1
  · exfalso
    revert herr
    show (if dictIsRehashing d3 then _ else _ : Dict K V × Nat).2 = DICT_ERR → False
    split
    · intro herr
      have hoe : DICT_OK = DICT_ERR := herr
      simp [DICT_OK, DICT_ERR] at hoe
    · intro herr
      have hoe : DICT_OK = DICT_ERR := herr
      simp [DICT_OK, DICT_ERR] at hoe

/-- Witness for claim C10's amended theorem at the concrete dictionary
`c10w` with duplicate key 0. -/
theorem c10_failing_add_preserves_dictSize_witness :
    dictSize (dictAdd idHash true c10w 0 99).1 = dictSize c10w :=
  c10_failing_add_preserves_dictSize idHash true c10w 0 99
    ⟨by decide, by decide, by decide, by decide, by decide, by decide, by decide⟩
    (by decide)

/-- Generalisation of the bucket-splitting lemmas: replacing the chain at a
valid index exchanges it in the flattened multiset. -/
theorem flatten_set_ms {α : Type} (t : List (List α)) (i : Nat) (x : List α)
    (h : i < t.length) :
    ((t.set i x).flatten : Multiset α) = ↑x + ↑((t.set i []).flatten) := by
  induction t generalizing i with
  | nil => simp at h
  | cons hd tl ih =>
    cases i with
    | zero => simp
    | succ j =>
      have hj : j < tl.length := by simpa using h
      have ih' := ih j hj
      show ((hd :: tl.set j x).flatten : Multiset α) =
        ↑x + ↑((hd :: tl.set j []).flatten)
      have hsplit : ∀ (a b : List α), (↑(a ++ b) : Multiset α) = ↑a + ↑b := fun _ _ => rfl
      rw [List.flatten_cons, List.flatten_cons, hsplit, hsplit, ih']
      abel

/-- In a well-placed table, every entry of the flattened table is found in
the bucket its hash selects. -/
theorem mem_bucket_of_mem_flatten {K V : Type} {hash : K → Nat} {ht : Dictht K V}
    (hp : wellPlacedHt hash ht) (e : DictEntry K V) (he : e ∈ ht.table.flatten) :
    e ∈ bucketAt ht.table (dictHashKey hash e.key &&& ht.sizemask) := by
  obtain ⟨l, hl, hel⟩ := List.mem_flatten.mp he
  obtain ⟨i, hi, hgl⟩ := List.mem_iff_getElem.mp hl
  have hbl : bucketAt ht.table i = l := by
    simp [bucketAt, List.getD, List.getElem?_eq_getElem hi, hgl]
  have hplace := hp i hi e (by rw [hbl]; exact hel)
  rw [hplace, hbl]
  exact hel

/-- `bucketAt` commutes with mapping a function over every chain. -/
theorem bucketAt_map_chains {α β : Type} (f : α → β) (t : List (List α)) (i : Nat) :
    bucketAt (t.map (List.map f)) i = List.map f (bucketAt t i) := by
  by_cases h : i < t.length
  · simp [bucketAt, List.getD, List.getElem?_map, List.getElem?_eq_getElem h]
  · have h1 : t.length ≤ i := by omega
    simp [bucketAt, List.getD, List.getElem?_eq_none h1,
      List.getElem?_eq_none (by simpa using h1 : (t.map (List.map f)).length ≤ i)]

theorem removeFirst_spec {K V : Type} [DecidableEq K] (key : K)
    (l : List (DictEntry K V)) :
    ((removeFirst key l).2 = true →
      (∃ e, e.key = key ∧ (↑l : Multiset (DictEntry K V)) = e ::ₘ ↑(removeFirst key l).1)) ∧
    ((removeFirst key l).2 = false → (removeFirst key l).1 = l) ∧
    (∀ e ∈ (removeFirst key l).1, e ∈ l) := by
  induction l with
  | nil =>
    refine ⟨?_, ?_, ?_⟩
    · intro h
      simp [removeFirst] at h
    · intro _
      rfl
    · intro e he
      simp [removeFirst] at he
  | cons a rest ih =>
    rw [removeFirst]
    by_cases ha : a.key = key
    · rw [if_pos ha]
      refine ⟨?_, ?_, ?_⟩
      · intro _
        exact ⟨a, ha, rfl⟩
      · intro h
        simp at h
      · intro e he
        exact List.mem_cons_of_mem a he
    · rw [if_neg ha]
      rcases hr : removeFirst key rest with ⟨rest', found⟩
      rw [hr] at ih
      refine ⟨?_, ?_, ?_⟩
      · intro hf
        have hf' : found = true := hf
        obtain ⟨e, hek, hms⟩ := ih.1 hf'
        refine ⟨e, hek, ?_⟩
        show (↑(a :: rest) : Multiset (DictEntry K V)) = e ::ₘ ↑(a :: rest')
        have h1 : (↑(a :: rest) : Multiset (DictEntry K V)) = a ::ₘ ↑rest := rfl
        have h2 : (↑(a :: rest') : Multiset (DictEntry K V)) = a ::ₘ ↑rest' := rfl
        rw [h1, h2, hms, Multiset.cons_swap]
      · intro hf
        have hf' : found = false := hf
        have h3 : rest' = rest := ih.2.1 hf'
        show a :: rest' = a :: rest
        rw [h3]
      · intro e he
        rcases List.mem_cons.mp he with h | h
        · rw [h]
          exact List.mem_cons_self a rest
        · exact List.mem_cons_of_mem a (ih.2.2 e h)

/-- Head-inserting an entry into the bucket selected by its hash preserves
the table invariants and adds the entry to the multiset. -/
theorem htInsert_spec {K V : Type} (hash : K → Nat) (ht : Dictht K V)
    (e : DictEntry K V) (idx : Nat) (hidx : idx < ht.table.length)
    (hplace : dictHashKey hash e.key &&& ht.sizemask = idx)
    (hc : htConsistent ht) (hp : wellPlacedHt hash ht) :
    htConsistent (⟨ht.table.set idx (e :: bucketAt ht.table idx), ht.used + 1⟩ : Dictht K V) ∧
    wellPlacedHt hash (⟨ht.table.set idx (e :: bucketAt ht.table idx), ht.used + 1⟩ : Dictht K V) ∧
    ((⟨ht.table.set idx (e :: bucketAt ht.table idx), ht.used + 1⟩ : Dictht K V).table.flatten :
      Multiset (DictEntry K V)) = e ::ₘ ↑ht.table.flatten ∧
    (ht.table.set idx (e :: bucketAt ht.table idx)).length = ht.table.length := by
  have hms := flatten_set_cons_ms ht.table idx e hidx
  refine ⟨?_, ?_, hms, by simp⟩
  · show ht.used + 1 = (ht.table.set idx (e :: bucketAt ht.table idx)).flatten.length
    have hcard := congrArg Multiset.card hms
    simp only [Multiset.coe_card, Multiset.card_cons] at hcard
    unfold htConsistent at hc
    omega
  · intro i hi e' he'
    have hi' : i < ht.table.length := by simpa using hi
    have hmask : (⟨ht.table.set idx (e :: bucketAt ht.table idx), ht.used + 1⟩ :
        Dictht K V).sizemask = ht.sizemask := by
      simp [Dictht.sizemask]
    rw [hmask]
    by_cases hcase : i = idx
    · rw [hcase] at he' ⊢
      rw [show bucketAt ((⟨ht.table.set idx (e :: bucketAt ht.table idx), ht.used + 1⟩ :
          Dictht K V)).table idx = e :: bucketAt ht.table idx from
          bucketAt_set_self _ _ _ hidx] at he'
      rcases List.mem_cons.mp he' with h | h
      · rw [h]
        exact hplace
      · exact wellPlacedHt_apply hp idx e' h
    · rw [show bucketAt ((⟨ht.table.set idx (e :: bucketAt ht.table idx), ht.used + 1⟩ :
          Dictht K V)).table i = bucketAt ht.table i from
          bucketAt_set_ne _ _ _ _ (fun hh => hcase hh.symm)] at he'
      exact wellPlacedHt_apply hp i e' he'

/-- After a successful capacity check that leaves the dictionary
non-rehashing, `ht[0]` is allocated. -/
theorem expandIfNeeded_ht0_pos {K V : Type} (hash : K → Nat) (can : Bool)
    (d : Dict K V) (hwf : dictWF hash d)
    (hok : (_dictExpandIfNeeded can d).2 ≠ DICT_ERR)
    (hnr : ¬ dictIsRehashing (_dictExpandIfNeeded can d).1) :
    0 < (_dictExpandIfNeeded can d).1.ht0.size := by
  obtain ⟨hc0, _, _, _, _, _, hnrimp⟩ := hwf
  unfold _dictExpandIfNeeded at hok hnr ⊢
  by_cases h1 : dictIsRehashing d
  · rw [if_pos h1] at hnr
    exact absurd h1 hnr
  · rw [if_neg h1] at hok hnr ⊢
    by_cases h2 : d.ht0.size = 0
    · rw [if_pos h2] at hok hnr ⊢
      have htnil : d.ht0.table = [] := List.length_eq_zero.mp h2
      have hu0 : d.ht0.used = 0 := by
        unfold htConsistent at hc0
        rw [htnil] at hc0
        simpa using hc0
      have hred : dictExpand d DICT_HT_INITIAL_SIZE =
          ({ d with ht0 := ⟨List.replicate (_dictNextPower DICT_HT_INITIAL_SIZE)
            ([] : List (DictEntry K V)), 0⟩ }, DICT_OK) := by
        unfold dictExpand
        rw [if_neg (by
          intro hcon
          rcases hcon with h | h
          · exact h1 h
          · unfold DICT_HT_INITIAL_SIZE at h
            omega)]
        rw [if_neg (by
          have := _dictNextPower_pos DICT_HT_INITIAL_SIZE
          omega)]
        rw [if_pos (by rw [htnil]; rfl)]
      rw [hred]
      show 0 < (List.replicate (_dictNextPower DICT_HT_INITIAL_SIZE)
        ([] : List (DictEntry K V))).length
      rw [List.length_replicate]
      exact _dictNextPower_pos _
    · rw [if_neg h2] at hok hnr ⊢
      by_cases h3 : d.ht0.used ≥ d.ht0.size ∧
          (can = true ∨ d.ht0.used / d.ht0.size > dict_force_resize_ratio)
      · rw [if_pos h3] at hok hnr ⊢
        unfold dictExpand at hnr ⊢
        by_cases h4 : dictIsRehashing d ∨ d.ht0.used > d.ht0.used * 2
        · rw [if_pos h4] at hnr ⊢
          show 0 < d.ht0.size
          omega
        · rw [if_neg h4] at hnr ⊢
          by_cases h5 : _dictNextPower (d.ht0.used * 2) = d.ht0.size
          · rw [if_pos h5] at hnr ⊢
            show 0 < d.ht0.size
            omega
          · rw [if_neg h5] at hnr ⊢
            by_cases h6 : d.ht0.table.isEmpty
            · exfalso
              apply h2
              show d.ht0.table.length = 0
              cases hh : d.ht0.table
              · rfl
              · rw [hh] at h6
                simp [List.isEmpty] at h6
            · rw [if_neg h6] at hnr
              exfalso
              exact hnr (show ((0 : Int)) ≠ -1 by omega)
      · rw [if_neg h3] at hok hnr ⊢
        show 0 < d.ht0.size
        omega

/-- When `_dictKeyIndex` returns an index, the key is absent from the
dictionary it returns, and the index is the key's bucket in the table the
insertion targets (allocated `ht[1]` while rehashing, else `ht[0]`). -/
theorem keyIndex_some_spec {K V : Type} [DecidableEq K] (hash : K → Nat)
    (can : Bool) (d : Dict K V) (key : K) (idx : Nat)
    (hwf : dictWF hash d)
    (heq : (_dictKeyIndex hash can d key).2 = some idx) :
    key ∉ dictKeysMS (_dictKeyIndex hash can d key).1 ∧
    (dictIsRehashing (_dictKeyIndex hash can d key).1 →
      idx = dictHashKey hash key &&& (_dictKeyIndex hash can d key).1.ht1.sizemask) ∧
    (¬ dictIsRehashing (_dictKeyIndex hash can d key).1 →
      idx = dictHashKey hash key &&& (_dictKeyIndex hash can d key).1.ht0.sizemask ∧
      0 < (_dictKeyIndex hash can d key).1.ht0.size) := by
  have hwf3 := (expandIfNeeded_spec hash can d hwf).2.2.1
  have hpos := expandIfNeeded_ht0_pos hash can d hwf
  unfold _dictKeyIndex at heq ⊢
  rcases h3 : _dictExpandIfNeeded can d with ⟨d3, code⟩
  rw [h3] at heq hwf3 hpos
  dsimp only [] at heq ⊢
  obtain ⟨hc30, hc31, hp30, hp31, _, hreh3, hnr3⟩ := hwf3
  by_cases hcode : code = DICT_ERR
  · rw [if_pos hcode] at heq
    simp at heq
  · rw [if_neg hcode] at heq ⊢
    by_cases hany0 : ((bucketAt d3.ht0.table
        (dictHashKey hash key &&& d3.ht0.sizemask)).any
        (fun e => decide (e.key = key))) = true
    · rw [if_pos hany0] at heq
      simp at heq
    · rw [if_neg hany0] at heq ⊢
      have hnot0 : ∀ e ∈ d3.ht0.table.flatten, e.key ≠ key := by
        intro e he hekey
        apply hany0
        refine List.any_eq_true.mpr ⟨e, ?_, by simp [hekey]⟩
        have := mem_bucket_of_mem_flatten hp30 e he
        rw [hekey] at this
        exact this
      by_cases hreh : dictIsRehashing d3
      · rw [if_pos hreh] at heq ⊢
        by_cases hany1 : ((bucketAt d3.ht1.table
            (dictHashKey hash key &&& d3.ht1.sizemask)).any
            (fun e => decide (e.key = key))) = true
        · rw [if_pos hany1] at heq
          simp at heq
        · rw [if_neg hany1] at heq ⊢
          have hidx : idx = dictHashKey hash key &&& d3.ht1.sizemask := by
            have hs : some (dictHashKey hash key &&& d3.ht1.sizemask) = some idx := heq
            exact (Option.some.inj hs).symm
          have hnot1 : ∀ e ∈ d3.ht1.table.flatten, e.key ≠ key := by
            intro e he hekey
            apply hany1
            refine List.any_eq_true.mpr ⟨e, ?_, by simp [hekey]⟩
            have := mem_bucket_of_mem_flatten hp31 e he
            rw [hekey] at this
            exact this
          refine ⟨?_, fun _ => hidx, fun hcon => absurd hreh hcon⟩
          intro hmem
          unfold dictKeysMS dictEntriesMS at hmem
          obtain ⟨e, hemem, hekey⟩ := Multiset.mem_map.mp hmem
          have hemem' : e ∈ d3.ht0.table.flatten ++ d3.ht1.table.flatten := hemem
          rcases List.mem_append.mp hemem' with h | h
          · exact hnot0 e h hekey
          · exact hnot1 e h hekey
      · rw [if_neg hreh] at heq ⊢
        have hidx : idx = dictHashKey hash key &&& d3.ht0.sizemask := by
          have hs : some (dictHashKey hash key &&& d3.ht0.sizemask) = some idx := heq
          exact (Option.some.inj hs).symm
        have hflat1 : d3.ht1.table.flatten = [] := by
          rw [hnr3 hreh]
          rfl
        refine ⟨?_, fun hcon => absurd hcon hreh, fun _ => ⟨hidx, ?_⟩⟩
        · intro hmem
          unfold dictKeysMS dictEntriesMS at hmem
          obtain ⟨e, hemem, hekey⟩ := Multiset.mem_map.mp hmem
          have hemem' : e ∈ d3.ht0.table.flatten ++ d3.ht1.table.flatten := hemem
          rcases List.mem_append.mp hemem' with h | h
          · exact hnot0 e h hekey
          · rw [hflat1] at h
            exact absurd h (List.not_mem_nil e)
        · exact hpos hcode hreh

/-- `dictAdd` specification: well-formedness is preserved; on success the
new entry is added to the entry multiset and its key was absent; on the
duplicate/failure outcome the entries are unchanged. -/
theorem dictAdd_spec {K V : Type} [DecidableEq K] (hash : K → Nat) (can : Bool)
    (d : Dict K V) (key : K) (val : V) (hwf : dictWF hash d) :
    dictWF hash (dictAdd hash can d key val).1 ∧
    (dictAdd hash can d key val).1.iterators = d.iterators ∧
    ((dictAdd hash can d key val).2 = DICT_OK ∨
      (dictAdd hash can d key val).2 = DICT_ERR) ∧
    ((dictAdd hash can d key val).2 = DICT_OK →
      dictEntriesMS (dictAdd hash can d key val).1 =
        (⟨key, val⟩ : DictEntry K V) ::ₘ dictEntriesMS d ∧
      key ∉ dictKeysMS d) ∧
    ((dictAdd hash can d key val).2 = DICT_ERR →
      dictEntriesMS (dictAdd hash can d key val).1 = dictEntriesMS d) := by
  have hstep : dictSize (if dictIsRehashing d then _dictRehashStep hash d else d) =
        dictSize d ∧
      dictEntriesMS (if dictIsRehashing d then _dictRehashStep hash d else d) =
        dictEntriesMS d ∧
      dictWF hash (if dictIsRehashing d then _dictRehashStep hash d else d) ∧
      (if dictIsRehashing d then _dictRehashStep hash d else d).iterators =
        d.iterators := by
    by_cases hr : dictIsRehashing d
    · rw [if_pos hr]
      exact rehashStep_spec hash d hwf
    · rw [if_neg hr]
      exact ⟨rfl, rfl, hwf, rfl⟩
  set d2 := if dictIsRehashing d then _dictRehashStep hash d else d with hd2
  have hexp := expandIfNeeded_spec hash can d2 hstep.2.2.1
  have hksome := keyIndex_some_spec hash can d2 key
  have hkfst := keyIndex_fst hash can d2 key
  unfold dictAdd
  dsimp only []
  rw [← hd2]
  rcases hki : _dictKeyIndex hash can d2 key with ⟨d3, o⟩
  rw [hki] at hkfst
  replace hkfst : d3 = (_dictExpandIfNeeded can d2).1 := hkfst
  have hd3wf : dictWF hash d3 := by
    rw [hkfst]
    exact hexp.2.2.1
  have hd3ms : dictEntriesMS d3 = dictEntriesMS d := by
    rw [hkfst, hexp.2.1]
    exact hstep.2.1
  have hd3it : d3.iterators = d.iterators := by
    rw [hkfst, hexp.2.2.2]
    exact hstep.2.2.2
  have hd3keys : dictKeysMS d3 = dictKeysMS d := by
    unfold dictKeysMS
    rw [hd3ms]
  rcases o with _ | idx
  · dsimp only []
    refine ⟨hd3wf, hd3it, Or.inr rfl, ?_, fun _ => hd3ms⟩
    intro h
    have hoe : DICT_ERR = DICT_OK := h
    simp [DICT_OK, DICT_ERR] at hoe
  · have hsome := hksome idx hstep.2.2.1 (by rw [hki])
    rw [hki] at hsome
    obtain ⟨hnotmem, hrehidx, hnridx⟩ := hsome
    obtain ⟨hc30, hc31, hp30, hp31, hbelow3, hreh3, hnr3⟩ := hd3wf
    dsimp only []
    by_cases hr3 : dictIsRehashing d3
    · rw [if_pos hr3]
      have hidx : idx = dictHashKey hash key &&& d3.ht1.sizemask := hrehidx hr3
      have hlen1 : 0 < d3.ht1.table.length := (hreh3 hr3).2
      have hidxlt : idx < d3.ht1.table.length := by
        have h1 : dictHashKey hash key &&& d3.ht1.sizemask ≤ d3.ht1.sizemask :=
          Nat.and_le_right
        have h2 : d3.ht1.sizemask = d3.ht1.table.length - 1 := rfl
        omega
      have hins := htInsert_spec hash d3.ht1 ⟨key, val⟩ idx hidxlt
        (by rw [hidx]) hc31 hp31
      refine ⟨⟨hc30, hins.1, hp30, hins.2.1, ?_, ?_, ?_⟩, hd3it, Or.inl rfl, ?_, ?_⟩
      · intro j hj
        exact hbelow3 j hj
      · intro _
        exact ⟨(hreh3 hr3).1, by rw [hins.2.2.2]; exact hlen1⟩
      · intro hcon
        exact absurd hr3 hcon
      · intro _
        constructor
        · show (↑(d3.ht0.table.flatten ++
            ((d3.ht1.table.set idx ((⟨key, val⟩ : DictEntry K V) ::
              bucketAt d3.ht1.table idx))).flatten) : Multiset (DictEntry K V)) =
            (⟨key, val⟩ : DictEntry K V) ::ₘ dictEntriesMS d
          have hsplit : ∀ (a b : List (DictEntry K V)),
              (↑(a ++ b) : Multiset (DictEntry K V)) = ↑a + ↑b := fun _ _ => rfl
          rw [hsplit]
          have := hins.2.2.1
          rw [show ((⟨d3.ht1.table.set idx ((⟨key, val⟩ : DictEntry K V) ::
            bucketAt d3.ht1.table idx), d3.ht1.used + 1⟩ : Dictht K V)).table =
            d3.ht1.table.set idx ((⟨key, val⟩ : DictEntry K V) ::
              bucketAt d3.ht1.table idx) from rfl] at this
          rw [this, ← hd3ms]
          unfold dictEntriesMS
          rw [hsplit, Multiset.add_cons]
        · rw [← hd3keys]
          exact hnotmem
      · intro h
        have hoe : DICT_OK = DICT_ERR := h
        simp [DICT_OK, DICT_ERR] at hoe
    · rw [if_neg hr3]
      obtain ⟨hidx0, hlen00⟩ := hnridx hr3
      have hidx : idx = dictHashKey hash key &&& d3.ht0.sizemask := hidx0
      have hlen0 : 0 < d3.ht0.size := hlen00
      have hidxlt : idx < d3.ht0.table.length := by
        have h1 : dictHashKey hash key &&& d3.ht0.sizemask ≤ d3.ht0.sizemask :=
          Nat.and_le_right
        have h2 : d3.ht0.sizemask = d3.ht0.table.length - 1 := rfl
        have h3 : (d3.ht0.size : Nat) = d3.ht0.table.length := rfl
        omega
      have hins := htInsert_spec hash d3.ht0 ⟨key, val⟩ idx hidxlt
        (by rw [hidx]) hc30 hp30
      refine ⟨⟨hins.1, hc31, hins.2.1, hp31, ?_, ?_, ?_⟩, hd3it, Or.inl rfl, ?_, ?_⟩
      · intro j hj
        have hj' : j < d3.rehashidx.toNat := hj
        have hnr3' : d3.rehashidx = -1 := not_not.mp hr3
        rw [hnr3'] at hj'
        simp at hj'
      · intro hcon
        exact absurd hcon hr3
      · intro _
        exact hnr3 hr3
      · intro _
        constructor
        · show (↑(((d3.ht0.table.set idx ((⟨key, val⟩ : DictEntry K V) ::
              bucketAt d3.ht0.table idx))).flatten ++ d3.ht1.table.flatten) :
              Multiset (DictEntry K V)) =
            (⟨key, val⟩ : DictEntry K V) ::ₘ dictEntriesMS d
          have hsplit : ∀ (a b : List (DictEntry K V)),
              (↑(a ++ b) : Multiset (DictEntry K V)) = ↑a + ↑b := fun _ _ => rfl
          rw [hsplit]
          have := hins.2.2.1
          rw [show ((⟨d3.ht0.table.set idx ((⟨key, val⟩ : DictEntry K V) ::
            bucketAt d3.ht0.table idx), d3.ht0.used + 1⟩ : Dictht K V)).table =
            d3.ht0.table.set idx ((⟨key, val⟩ : DictEntry K V) ::
              bucketAt d3.ht0.table idx) from rfl] at this
          rw [this, ← hd3ms]
          unfold dictEntriesMS
          rw [hsplit, Multiset.cons_add]
        · rw [← hd3keys]
          exact hnotmem
      · intro h
        have hoe : DICT_OK = DICT_ERR := h
        simp [DICT_OK, DICT_ERR] at hoe

/-- Unlinking one entry from the bucket chain that holds its key preserves
the table invariants and only removes entries from the multiset. -/
theorem htRemove_spec {K V : Type} [DecidableEq K] (hash : K → Nat)
    (ht : Dictht K V) (key : K) (idx : Nat)
    (hfound : (removeFirst key (bucketAt ht.table idx)).2 = true)
    (hc : htConsistent ht) (hp : wellPlacedHt hash ht) :
    htConsistent (⟨ht.table.set idx (removeFirst key (bucketAt ht.table idx)).1,
      ht.used - 1⟩ : Dictht K V) ∧
    wellPlacedHt hash (⟨ht.table.set idx (removeFirst key (bucketAt ht.table idx)).1,
      ht.used - 1⟩ : Dictht K V) ∧
    ((⟨ht.table.set idx (removeFirst key (bucketAt ht.table idx)).1,
      ht.used - 1⟩ : Dictht K V).table.flatten : Multiset (DictEntry K V)) ≤
      ↑ht.table.flatten ∧
    (ht.table.set idx (removeFirst key (bucketAt ht.table idx)).1).length =
      ht.table.length ∧
    bucketAt ht.table idx ≠ [] := by
  obtain ⟨e, _, hsplitms⟩ := (removeFirst_spec key (bucketAt ht.table idx)).1 hfound
  have hmem := (removeFirst_spec key (bucketAt ht.table idx)).2.2
  have hbne : bucketAt ht.table idx ≠ [] := by
    intro hnil
    rw [hnil] at hsplitms
    have := congrArg Multiset.card hsplitms
    simp at this
  have hidxlt : idx < ht.table.length := bucketAt_nonempty_lt _ _ hbne
  have hsetms := flatten_set_ms ht.table idx
    (removeFirst key (bucketAt ht.table idx)).1 hidxlt
  have holdms := flatten_set_nil_ms ht.table idx hidxlt
  have hle : ((ht.table.set idx (removeFirst key (bucketAt ht.table idx)).1).flatten :
      Multiset (DictEntry K V)) ≤ ↑ht.table.flatten := by
    rw [hsetms, holdms, hsplitms]
    have : (↑(removeFirst key (bucketAt ht.table idx)).1 : Multiset (DictEntry K V)) ≤
        e ::ₘ ↑(removeFirst key (bucketAt ht.table idx)).1 :=
      Multiset.le_cons_self _ _
    exact add_le_add_right this _
  refine ⟨?_, ?_, hle, by simp, hbne⟩
  · show ht.used - 1 =
      (ht.table.set idx (removeFirst key (bucketAt ht.table idx)).1).flatten.length
    have hc1 := congrArg Multiset.card hsetms
    have hc2 := congrArg Multiset.card holdms
    have hc3 := congrArg Multiset.card hsplitms
    simp only [Multiset.coe_card, Multiset.card_add, Multiset.card_cons] at hc1 hc2 hc3
    unfold htConsistent at hc
    omega
  · intro i hi e' he'
    have hi' : i < ht.table.length := by simpa using hi
    have hmask : (⟨ht.table.set idx (removeFirst key (bucketAt ht.table idx)).1,
        ht.used - 1⟩ : Dictht K V).sizemask = ht.sizemask := by
      simp [Dictht.sizemask]
    rw [hmask]
    by_cases hcase : i = idx
    · rw [hcase] at he' ⊢
      rw [show bucketAt ((⟨ht.table.set idx (removeFirst key (bucketAt ht.table idx)).1,
          ht.used - 1⟩ : Dictht K V)).table idx =
          (removeFirst key (bucketAt ht.table idx)).1 from
          bucketAt_set_self _ _ _ hidxlt] at he'
      exact wellPlacedHt_apply hp idx e' (hmem e' he')
    · rw [show bucketAt ((⟨ht.table.set idx (removeFirst key (bucketAt ht.table idx)).1,
          ht.used - 1⟩ : Dictht K V)).table i = bucketAt ht.table i from
          bucketAt_set_ne _ _ _ _ (fun hh => hcase hh.symm)] at he'
      exact wellPlacedHt_apply hp i e' he'

/-- `dictGenericDelete` specification: well-formedness is preserved and the
entry multiset only loses entries. -/
theorem dictGenericDelete_spec {K V : Type} [DecidableEq K] (hash : K → Nat)
    (d : Dict K V) (key : K) (hwf : dictWF hash d) :
    dictWF hash (dictGenericDelete hash d key).1 ∧
    (dictGenericDelete hash d key).1.iterators = d.iterators ∧
    dictEntriesMS (dictGenericDelete hash d key).1 ≤ dictEntriesMS d := by
  unfold dictGenericDelete
  by_cases h0 : d.ht0.size = 0
  · rw [if_pos h0]
    exact ⟨hwf, rfl, le_refl _⟩
  · rw [if_neg h0]
    have hstep : dictEntriesMS (if dictIsRehashing d then _dictRehashStep hash d else d) =
          dictEntriesMS d ∧
        dictWF hash (if dictIsRehashing d then _dictRehashStep hash d else d) ∧
        (if dictIsRehashing d then _dictRehashStep hash d else d).iterators =
          d.iterators := by
      by_cases hr : dictIsRehashing d
      · rw [if_pos hr]
        have := rehashStep_spec hash d hwf
        exact ⟨this.2.1, this.2.2.1, this.2.2.2⟩
      · rw [if_neg hr]
        exact ⟨rfl, hwf, rfl⟩
    set d2 := if dictIsRehashing d then _dictRehashStep hash d else d with hd2
    obtain ⟨hms2, hwf2, hit2⟩ := hstep
    obtain ⟨hc20, hc21, hp20, hp21, hbelow2, hreh2, hnr2⟩ := hwf2
    dsimp only []
    rcases hrm0 : removeFirst key
        (bucketAt d2.ht0.table (dictHashKey hash key &&& d2.ht0.sizemask)) with
      ⟨chain0, found0⟩
    cases found0 with
    | true =>
      dsimp only []
      have hrm := htRemove_spec hash d2.ht0 key
        (dictHashKey hash key &&& d2.ht0.sizemask) (by rw [hrm0]) hc20 hp20
      have hchain0 : chain0 = (removeFirst key (bucketAt d2.ht0.table
          (dictHashKey hash key &&& d2.ht0.sizemask))).1 := by rw [hrm0]
      rw [hchain0]
      refine ⟨⟨hrm.1, hc21, hrm.2.1, hp21, ?_, ?_, ?_⟩, hit2, ?_⟩
      · intro j hj
        have hj' : j < d2.rehashidx.toNat := hj
        have hbne := hrm.2.2.2.2
        have hjne : j ≠ dictHashKey hash key &&& d2.ht0.sizemask := by
          intro hcon
          apply hbne
          rw [← hcon]
          exact hbelow2 j hj'
        show bucketAt (d2.ht0.table.set (dictHashKey hash key &&& d2.ht0.sizemask)
          (removeFirst key (bucketAt d2.ht0.table
            (dictHashKey hash key &&& d2.ht0.sizemask))).1) j = []
        rw [bucketAt_set_ne _ _ _ _ (fun hh => hjne hh.symm)]
        exact hbelow2 j hj'
      · intro hreh'
        have hreh'' : dictIsRehashing d2 := hreh'
        exact ⟨(hreh2 hreh'').1, (hreh2 hreh'').2⟩
      · intro hnr'
        have hnr'' : ¬ dictIsRehashing d2 := hnr'
        exact hnr2 hnr''
      · calc dictEntriesMS _ = ↑((d2.ht0.table.set
              (dictHashKey hash key &&& d2.ht0.sizemask)
              (removeFirst key (bucketAt d2.ht0.table
                (dictHashKey hash key &&& d2.ht0.sizemask))).1).flatten) +
              ↑d2.ht1.table.flatten := rfl
          _ ≤ ↑d2.ht0.table.flatten + ↑d2.ht1.table.flatten :=
            add_le_add_right hrm.2.2.1 _
          _ = dictEntriesMS d2 := rfl
          _ = dictEntriesMS d := hms2
    | false =>
      dsimp only []
      by_cases hr2 : dictIsRehashing d2
      · rw [if_pos hr2]
        rcases hrm1 : removeFirst key
            (bucketAt d2.ht1.table (dictHashKey hash key &&& d2.ht1.sizemask)) with
          ⟨chain1, found1⟩
        cases found1 with
        | true =>
          dsimp only []
          have hrm := htRemove_spec hash d2.ht1 key
            (dictHashKey hash key &&& d2.ht1.sizemask) (by rw [hrm1]) hc21 hp21
          have hchain1 : chain1 = (removeFirst key (bucketAt d2.ht1.table
              (dictHashKey hash key &&& d2.ht1.sizemask))).1 := by rw [hrm1]
          rw [hchain1]
          refine ⟨⟨hc20, hrm.1, hp20, hrm.2.1, ?_, ?_, ?_⟩, hit2, ?_⟩
          · intro j hj
            exact hbelow2 j hj
          · intro _
            refine ⟨(hreh2 hr2).1, ?_⟩
            show 0 < (d2.ht1.table.set (dictHashKey hash key &&& d2.ht1.sizemask)
              (removeFirst key (bucketAt d2.ht1.table
                (dictHashKey hash key &&& d2.ht1.sizemask))).1).length
            rw [hrm.2.2.2.1]
            exact (hreh2 hr2).2
          · intro hcon
            exact absurd hr2 hcon
          · calc dictEntriesMS _ = ↑d2.ht0.table.flatten + ↑((d2.ht1.table.set
                  (dictHashKey hash key &&& d2.ht1.sizemask)
                  (removeFirst key (bucketAt d2.ht1.table
                    (dictHashKey hash key &&& d2.ht1.sizemask))).1).flatten) := rfl
              _ ≤ ↑d2.ht0.table.flatten + ↑d2.ht1.table.flatten :=
                add_le_add_left hrm.2.2.1 _
              _ = dictEntriesMS d2 := rfl
              _ = dictEntriesMS d := hms2
        | false =>
          dsimp only []
          exact ⟨⟨hc20, hc21, hp20, hp21, hbelow2, hreh2, hnr2⟩, hit2, le_of_eq hms2⟩
      · rw [if_neg hr2]
        exact ⟨⟨hc20, hc21, hp20, hp21, hbelow2, hreh2, hnr2⟩, hit2, le_of_eq hms2⟩

/-- Overwriting the value stored under a key leaves the list of keys of the
flattened table unchanged. -/
theorem setVal_flatten_keys {K V : Type} [DecidableEq K] (key : K) (val : V) :
    ∀ t : List (List (DictEntry K V)),
    ((t.map (fun chain => chain.map
        (fun e => if e.key = key then ⟨e.key, val⟩ else e))).flatten).map
      DictEntry.key = t.flatten.map DictEntry.key := by
  intro t
  induction t with
  | nil => rfl
  | cons c rest ih =>
    have hchain : (c.map (fun e => if e.key = key then
        (⟨e.key, val⟩ : DictEntry K V) else e)).map DictEntry.key =
        c.map DictEntry.key := by
      rw [List.map_map]
      apply List.map_congr_left
      intro e _
      by_cases he : e.key = key
      · simp [he]
      · simp [he]
    simp only [List.map_cons, List.flatten_cons, List.map_append, ih, hchain]

/-- The effect of `dictSetVal` through a found entry (`htSetVal`) preserves
the table invariants, sizes, keys and empty buckets. -/
theorem htSetVal_spec {K V : Type} [DecidableEq K] (hash : K → Nat) (key : K)
    (val : V) (ht : Dictht K V) (hc : htConsistent ht) (hp : wellPlacedHt hash ht) :
    htConsistent (htSetVal key val ht) ∧
    wellPlacedHt hash (htSetVal key val ht) ∧
    ((htSetVal key val ht).table.flatten).map DictEntry.key =
      ht.table.flatten.map DictEntry.key ∧
    (htSetVal key val ht).table.length = ht.table.length ∧
    (∀ j, bucketAt ht.table j = [] → bucketAt (htSetVal key val ht).table j = []) ∧
    (htSetVal key val ht).used = ht.used := by
  have hkeys := setVal_flatten_keys key val ht.table
  have hlen : (htSetVal key val ht).table.length = ht.table.length := by
    simp [htSetVal]
  refine ⟨?_, ?_, hkeys, hlen, ?_, rfl⟩
  · have hlenf : ((htSetVal key val ht).table.flatten).length =
        ht.table.flatten.length := by
      have h := congrArg List.length hkeys
      simp only [List.length_map] at h
      exact h
    show ht.used = (htSetVal key val ht).table.flatten.length
    rw [hlenf]
    exact hc
  · intro i hi e' he'
    have hmask : (htSetVal key val ht).sizemask = ht.sizemask := by
      simp [Dictht.sizemask, htSetVal]
    rw [hmask]
    have hb : bucketAt (htSetVal key val ht).table i =
        (bucketAt ht.table i).map
          (fun e => if e.key = key then ⟨e.key, val⟩ else e) :=
      bucketAt_map_chains _ ht.table i
    rw [hb] at he'
    obtain ⟨e, hemem, hee⟩ := List.mem_map.mp he'
    have hkey : e'.key = e.key := by
      rw [← hee]
      by_cases hk : e.key = key
      · simp [hk]
      · simp [hk]
    rw [hkey]
    have hi' : i < ht.table.length := by rw [← hlen]; simpa using hi
    exact wellPlacedHt_apply hp i e hemem
  · intro j hj
    have hb : bucketAt (htSetVal key val ht).table j =
        (bucketAt ht.table j).map
          (fun e => if e.key = key then ⟨e.key, val⟩ else e) :=
      bucketAt_map_chains _ ht.table j
    rw [hb, hj]
    rfl

/-- Overwriting a key's value in both tables preserves well-formedness and
the key multiset. -/
theorem setValDict_spec {K V : Type} [DecidableEq K] (hash : K → Nat) (key : K)
    (val : V) (d : Dict K V) (hwf : dictWF hash d) :
    dictWF hash { d with ht0 := htSetVal key val d.ht0, ht1 := htSetVal key val d.ht1 } ∧
    dictKeysMS { d with ht0 := htSetVal key val d.ht0, ht1 := htSetVal key val d.ht1 } =
      dictKeysMS d := by
  obtain ⟨hc0, hc1, hp0, hp1, hbelow, hreh, hnr⟩ := hwf
  have h0 := htSetVal_spec hash key val d.ht0 hc0 hp0
  have h1 := htSetVal_spec hash key val d.ht1 hc1 hp1
  constructor
  · refine ⟨h0.1, h1.1, h0.2.1, h1.2.1, ?_, ?_, ?_⟩
    · intro j hj
      exact h0.2.2.2.2.1 j (hbelow j hj)
    · intro hr'
      have hr'' : dictIsRehashing d := hr'
      refine ⟨(hreh hr'').1, ?_⟩
      show 0 < (htSetVal key val d.ht1).table.length
      rw [h1.2.2.2.1]
      exact (hreh hr'').2
    · intro hr'
      have hr'' : ¬ dictIsRehashing d := hr'
      show htSetVal key val d.ht1 = resetHt K V
      rw [hnr hr'']
      rfl
  · show (↑(((htSetVal key val d.ht0).table.flatten ++
        (htSetVal key val d.ht1).table.flatten).map DictEntry.key) : Multiset K) =
      ↑((d.ht0.table.flatten ++ d.ht1.table.flatten).map DictEntry.key)
    rw [List.map_append, List.map_append, h0.2.2.1, h1.2.2.1]

/-- The state effect of `dictFind` (at most one rehash step) preserves
well-formedness, entries and the iterator count. -/
theorem dictFind_fst_spec {K V : Type} [DecidableEq K] (hash : K → Nat)
    (d : Dict K V) (key : K) (hwf : dictWF hash d) :
    dictWF hash (dictFind hash d key).1 ∧
    dictEntriesMS (dictFind hash d key).1 = dictEntriesMS d ∧
    (dictFind hash d key).1.iterators = d.iterators := by
  unfold dictFind
  by_cases h0 : d.ht0.size = 0
  · rw [if_pos h0]
    exact ⟨hwf, rfl, rfl⟩
  · rw [if_neg h0]
    have hstep : dictWF hash (if dictIsRehashing d then _dictRehashStep hash d else d) ∧
        dictEntriesMS (if dictIsRehashing d then _dictRehashStep hash d else d) =
          dictEntriesMS d ∧
        (if dictIsRehashing d then _dictRehashStep hash d else d).iterators =
          d.iterators := by
      by_cases hr : dictIsRehashing d
      · rw [if_pos hr]
        have := rehashStep_spec hash d hwf
        exact ⟨this.2.2.1, this.2.1, this.2.2.2⟩
      · rw [if_neg hr]
        exact ⟨hwf, rfl, rfl⟩
    set d2 := if dictIsRehashing d then _dictRehashStep hash d else d with hd2
    dsimp only []
    rcases hf : (bucketAt d2.ht0.table
        (dictHashKey hash key &&& d2.ht0.sizemask)).find?
        (fun e => decide (e.key = key)) with _ | e
    · by_cases hr2 : dictIsRehashing d2
      · rw [if_pos hr2]
        rw [hf]
        exact hstep
      · rw [if_neg hr2]
        rw [hf]
        exact hstep
    · rw [hf]
      exact hstep

/-- A successful `rehashStepOK` contract rebuilds full well-formedness of the
result state. -/
theorem rehashStepOK_toWF {K V : Type} (hash : K → Nat) (d : Dict K V) (b : Nat)
    (r : Dict K V × Nat) (hok : rehashStepOK hash d b r)
    (hidx : 0 ≤ d.rehashidx) (h1len : 0 < d.ht1.table.length) :
    dictWF hash r.1 ∧ dictEntriesMS r.1 = dictEntriesMS d ∧
    r.1.iterators = d.iterators ∧ dictSize r.1 = dictSize d := by
  obtain ⟨i1, i2, i3, i4, i5, i6, i7, i8, i9, i10, i11⟩ := hok
  refine ⟨⟨i3, i4, i5, i6, ?_, ?_, ?_⟩, i2, i11, i1⟩
  · rcases i7 with h | h
    · have hridx := i8.mp h
      intro j hj
      rw [hridx] at hj
      simp at hj
    · exact (i10 h).2.2.2.2
  · intro hreh'
    rcases i7 with h | h
    · exact absurd (i8.mp h) hreh'
    · obtain ⟨j1, _, _, j4, _⟩ := i10 h
      refine ⟨by omega, by omega⟩
  · intro hnr'
    rcases i7 with h | h
    · exact (i9 h).1
    · exfalso
      obtain ⟨j1, _, _, _, _⟩ := i10 h
      have hm1 : r.1.rehashidx = -1 := not_not.mp hnr'
      omega

/-- `dictRehash` (for any step count) preserves well-formedness, the entry
multiset, the iterator count and the total size. -/
theorem dictRehash_spec {K V : Type} (hash : K → Nat) (d : Dict K V) (n : Nat)
    (hwf : dictWF hash d) :
    dictWF hash (dictRehash hash d n).1 ∧
    dictEntriesMS (dictRehash hash d n).1 = dictEntriesMS d ∧
    (dictRehash hash d n).1.iterators = d.iterators ∧
    dictSize (dictRehash hash d n).1 = dictSize d := by
  obtain ⟨hc0, hc1, hp0, hp1, hbelow, hrehimp, hnrimp⟩ := hwf
  unfold dictRehash
  by_cases hr : dictIsRehashing d
  · rw [if_pos hr]
    obtain ⟨hidx, h1len⟩ := hrehimp hr
    cases n with
    | zero =>
      have hloop : dictRehashLoop hash 0 (0 * 10) d = dictRehashCompleteCheck d := rfl
      rw [hloop]
      exact rehashStepOK_toWF hash d 0 _
        (completeCheck_spec hash d 0 hr hc0 hc1 hp0 hp1 hbelow) hidx h1len
    | succ m =>
      exact rehashStepOK_toWF hash d ((m + 1) * 10 + (m + 1)) _
        (dictRehashLoop_spec hash (m + 1) ((m + 1) * 10) d (by omega) hr hidx h1len
          hc0 hc1 hp0 hp1 hbelow) hidx h1len
  · rw [if_neg hr]
    exact ⟨⟨hc0, hc1, hp0, hp1, hbelow, hrehimp, hnrimp⟩, rfl, rfl, rfl⟩

/-- A freshly created dictionary is well-formed and empty. -/
theorem dictCreate_wf {K V : Type} (hash : K → Nat) :
    dictWF hash (dictCreate K V) ∧ dictKeysMS (dictCreate K V) = 0 := by
  refine ⟨⟨rfl, rfl, ?_, ?_, ?_, ?_, ?_⟩, rfl⟩
  · intro i hi e he
    simp [bucketAt, dictCreate, resetHt] at he
  · intro i hi e he
    simp [bucketAt, dictCreate, resetHt] at he
  · intro j hj
    simp [dictCreate] at hj
  · intro hreh'
    exact absurd rfl hreh'
  · intro _
    rfl

/-- Every reachable dictionary is well-formed and holds no duplicate keys. -/
theorem reachable_invariant {K V : Type} [DecidableEq K] (hash : K → Nat)
    (d : Dict K V) (h : Reachable hash d) :
    dictWF hash d ∧ (dictKeysMS d).Nodup := by
  induction h with
  | create =>
    obtain ⟨hwf, hms⟩ := dictCreate_wf (K := K) (V := V) hash
    exact ⟨hwf, by rw [hms]; exact Multiset.nodup_zero⟩
  | add d can key val _ ih =>
    obtain ⟨hwf, hnd⟩ := ih
    obtain ⟨hwf', hit', hcode, hoks, herrs⟩ := dictAdd_spec hash can d key val hwf
    refine ⟨hwf', ?_⟩
    rcases hcode with hok | herr
    · obtain ⟨hms, hnotin⟩ := hoks hok
      unfold dictKeysMS
      rw [hms, Multiset.map_cons]
      exact Multiset.nodup_cons.mpr ⟨hnotin, hnd⟩
    · unfold dictKeysMS
      rw [herrs herr]
      exact hnd
  | replace d can key val _ ih =>
    obtain ⟨hwf, hnd⟩ := ih
    obtain ⟨hwf', hit', hcode, hoks, herrs⟩ := dictAdd_spec hash can d key val hwf
    unfold dictReplace
    rcases hadd : dictAdd hash can d key val with ⟨d2, code⟩
    rw [hadd] at hwf' hit' hcode hoks herrs
    dsimp only [] at hwf' hit' hcode hoks herrs ⊢
    rcases hcode with hok | herr
    · rw [hok] at hoks ⊢
      rw [if_pos rfl]
      obtain ⟨hms, hnotin⟩ := hoks rfl
      refine ⟨hwf', ?_⟩
      unfold dictKeysMS
      rw [hms, Multiset.map_cons]
      exact Multiset.nodup_cons.mpr ⟨hnotin, hnd⟩
    · rw [herr]
      rw [if_neg (by simp [DICT_ERR, DICT_OK])]
      have hms2 : dictEntriesMS d2 = dictEntriesMS d := herrs herr
      obtain ⟨hwf3, hms3, _⟩ := dictFind_fst_spec hash d2 key hwf'
      obtain ⟨hwf4, hms4⟩ :=
        setValDict_spec hash key val (dictFind hash d2 key).1 hwf3
      refine ⟨hwf4, ?_⟩
      rw [hms4]
      unfold dictKeysMS
      rw [hms3, hms2]
      exact hnd
  | del d key _ ih =>
    obtain ⟨hwf, hnd⟩ := ih
    obtain ⟨hwf', _, hle⟩ := dictGenericDelete_spec hash d key hwf
    refine ⟨hwf', ?_⟩
    exact Multiset.nodup_of_le (Multiset.map_le_map hle) hnd
  | rehash d n _ ih =>
    obtain ⟨hwf, hnd⟩ := ih
    obtain ⟨hwf', hms, _, _⟩ := dictRehash_spec hash d n hwf
    refine ⟨hwf', ?_⟩
    unfold dictKeysMS
    rw [hms]
    exact hnd

/-- C7: in every dictionary state reachable by any sequence of
add/replace/delete/rehash operations from a fresh dictionary, each key
appears in at most one live entry across the union of both hash tables
(the multiset of keys chained in `ht[0]` and `ht[1]` together has no
duplicate). -/
theorem c7_no_duplicate_keys {K V : Type} [DecidableEq K] (hash : K → Nat)
    (d : Dict K V) (h : Reachable hash d) : (dictKeysMS d).Nodup :=
  (reachable_invariant hash d h).2

/-- Witness for C7 at a concrete reachable state. -/
theorem c7_no_duplicate_keys_witness :
    (dictKeysMS (dictAdd idHash true (dictCreate Nat Nat) 2 5).1).Nodup :=
  c7_no_duplicate_keys idHash (dictAdd idHash true (dictCreate Nat Nat) 2 5).1
    (Reachable.add (dictCreate Nat Nat) true 2 5 Reachable.create)

/-- C2: on the concrete scenario `c2d0`, an unsafe iterator's first advance
stores the dictionary fingerprint; a subsequent `dictExpand` (table resize)
changes the recomputed fingerprint, yet `dictReleaseIterator` as written in
this source performs no fingerprint comparison (the assert on dict.c line
844 is commented out), so the mismatch is not detected and the process is
not aborted; a find-only window leaves the fingerprint unchanged. -/
theorem c2_fingerprint_not_checked :
    c2next.2.2 = some ⟨1, 10⟩ ∧
    c2next.2.1.fingerprint = dictFingerprint c2p0 c2p1 c2d0 ∧
    dictFingerprint c2p0 c2p1 (dictExpand c2next.1 8).1 ≠ c2next.2.1.fingerprint ∧
    (dictReleaseIterator (dictExpand c2next.1 8).1 c2next.2.1).2 = false ∧
    dictFingerprint c2p0 c2p1 (dictFind idHash c2next.1 1).1 =
      c2next.2.1.fingerprint := by
  decide

/-- C1: a complete cursor cycle (0 → 8 → 2 → 1 → 3 → 0) over the
well-formed dictionary `c1dA`, with a table shrink (`dictResize` 16 → 4,
taking effect between the first and second call) in the middle, never
passes the entry with key 4 to the callback, although that entry is present
in both states for the whole scan: the do-while of `dictScan` only walks
the upward expansions of the current cursor, so large-table buckets 0 and 4
(expansions of small-table cursor 0, already consumed before the shrink)
are skipped. -/
theorem c1_scan_misses_entry_on_shrink :
    dictWF idHash c1dA ∧ dictWF idHash c1dB ∧
    c1dB = (dictResize true c1dA).1 ∧
    (dictScan c1dA 0).2 = 8 ∧
    (dictScan c1dB 8).2 = 2 ∧ (dictScan c1dB 2).2 = 1 ∧
    (dictScan c1dB 1).2 = 3 ∧ (dictScan c1dB 3).2 = 0 ∧
    (⟨4, 0⟩ : DictEntry Nat Nat) ∈ dictEntriesMS c1dA ∧
    (⟨4, 0⟩ : DictEntry Nat Nat) ∈ dictEntriesMS c1dB ∧
    (⟨4, 0⟩ : DictEntry Nat Nat) ∉ (dictScan c1dA 0).1 ∧
    (⟨4, 0⟩ : DictEntry Nat Nat) ∉ (dictScan c1dB 8).1 ∧
    (⟨4, 0⟩ : DictEntry Nat Nat) ∉ (dictScan c1dB 2).1 ∧
    (⟨4, 0⟩ : DictEntry Nat Nat) ∉ (dictScan c1dB 1).1 ∧
    (⟨4, 0⟩ : DictEntry Nat Nat) ∉ (dictScan c1dB 3).1 := by
  decide

/-- One table visit of the sampling loop never pushes the collected list
past `count`. -/
theorem skTable_out_le {K V : Type} (d : Dict K V) (count tables msk : Nat)
    (randf : Nat → Nat) (j : Nat) (s : SKState K V)
    (h : s.out.length ≤ count) :
    ((skTable d count tables msk randf j s).1).out.length ≤ count := by
  unfold skTable
  by_cases h1 : tables = 2 ∧ j = 0 ∧ s.i < (d.rehashidx % (2 ^ 32 : Int)).toNat
  · rw [if_pos h1]
    by_cases h2 : s.i ≥ d.ht1.size
    · rw [if_pos h2]
      exact h
    · rw [if_neg h2]
      exact h
  · rw [if_neg h1]
    dsimp only []
    by_cases h2 : s.i ≥ (if j = 0 then d.ht0 else d.ht1).size
    · rw [if_pos h2]
      exact h
    · rw [if_neg h2]
      rcases hb : bucketAt (if j = 0 then d.ht0 else d.ht1).table s.i with _ | ⟨e, rest⟩
      · by_cases h3 : s.emptylen + 1 ≥ 5 ∧ s.emptylen + 1 > count
        · rw [if_pos h3]
          exact h
        · rw [if_neg h3]
          exact h
      · show (s.out ++ (e :: rest).take (count - s.out.length)).length ≤ count
        have := List.length_take (count - s.out.length) (e :: rest)
        simp only [List.length_append]
        omega

/-- The sampling loop never collects more than `count` entries. -/
theorem someKeysLoop_le {K V : Type} (d : Dict K V) (count tables msk : Nat)
    (randf : Nat → Nat) :
    ∀ (fuel : Nat) (s : SKState K V), s.out.length ≤ count →
    (someKeysLoop d count tables msk randf fuel s).length ≤ count := by
  intro fuel
  induction fuel with
  | zero =>
    intro s h
    exact h
  | succ n ih =>
    intro s h
    show (someKeysLoop d count tables msk randf (n + 1) s).length ≤ count
    simp only [someKeysLoop]
    by_cases hlt : s.out.length < count
    · rw [if_pos hlt]
      rcases h1 : skTable d count tables msk randf 0 s with ⟨s1, done1⟩
      have hs1 : s1.out.length ≤ count := by
        have hh := skTable_out_le d count tables msk randf 0 s h
        rw [h1] at hh
        exact hh
      cases done1 with
      | true => exact hs1
      | false =>
        dsimp only []
        rcases h2 : (if tables = 2 then skTable d count tables msk randf 1 s1
            else (s1, false)) with ⟨s2, done2⟩
        have hs2 : s2.out.length ≤ count := by
          by_cases ht2 : tables = 2
          · rw [if_pos ht2] at h2
            have hh := skTable_out_le d count tables msk randf 1 s1 hs1
            rw [h2] at hh
            exact hh
          · rw [if_neg ht2] at h2
            have hss : s2 = s1 := (congrArg Prod.fst h2).symm
            rw [hss]
            exact hs1
        cases done2 with
        | true => exact hs2
        | false => exact ih { s2 with i := (s2.i + 1) &&& msk } hs2
    · rw [if_neg hlt]
      exact h

/-- C8 (amended): `dictGetSomeKeys` returns at most `min(count, dictSize d)`
entries — the `stored == count` early return and the initial clamping of
`count` to the live size cap the sample; the number actually returned may
be anything from 0 up to that bound, the step budget permitting. -/
theorem c8_getSomeKeys_le {K V : Type} (hash : K → Nat) (randf : Nat → Nat)
    (d : Dict K V) (count : Nat) :
    (dictGetSomeKeys hash randf d count).length ≤ min count (dictSize d) := by
  unfold dictGetSomeKeys
  dsimp only []
  refine le_trans (someKeysLoop_le _ _ _ _ randf _ _ ?_) ?_
  · simp
  · by_cases hc : dictSize d < count
    · rw [if_pos hc]
      omega
    · rw [if_neg hc]
      omega

/-- C8 counterexample: a well-formed dictionary with one live entry
(`M = 1 < count = 5`) on which `dictGetSomeKeys` returns no entry at all:
the random start lands in a run of empty buckets, the empty-run jump keeps
returning there, and the `10·count` step budget expires. -/
theorem c8_counterexample :
    dictWF idHash c8w ∧ dictSize c8w = 1 ∧
    dictGetSomeKeys idHash (fun _ => 32) c8w 5 = [] := by
  decide

/-- `_dictNextPower` is determined by its specification: any power of two
that is at least 4, at least `n`, and minimal with these properties is the
answer. -/
theorem nextPower_unique (n p : Nat) (hn : n < LONG_MAX) (hp : ∃ t, p = 2 ^ t)
    (h4 : 4 ≤ p) (hge : n ≤ p)
    (hmin : ∀ j, n ≤ 2 ^ j → 4 ≤ 2 ^ j → p ≤ 2 ^ j) :
    _dictNextPower n = p := by
  obtain ⟨hpow, hge', h4', hmin'⟩ := _dictNextPower_spec n hn
  obtain ⟨t, ht⟩ := hp
  obtain ⟨s, hs⟩ := hpow
  have h1 : _dictNextPower n ≤ p := by
    have := hmin' t (by rw [← ht]; exact hge) (by rw [← ht]; exact h4)
    rw [← ht] at this
    exact this
  have h2 : p ≤ _dictNextPower n := by
    have := hmin s (by rw [← hs]; exact hge') (by rw [← hs]; exact h4')
    rw [← hs] at this
    exact this
  omega

/-- `_dictNextPower` is monotone below `LONG_MAX`. -/
theorem nextPower_mono (m n : Nat) (hm : m ≤ n) (hn : n < LONG_MAX) :
    _dictNextPower m ≤ _dictNextPower n := by
  obtain ⟨⟨t, ht⟩, hge, h4, _⟩ := _dictNextPower_spec n hn
  obtain ⟨_, _, _, hmin⟩ := _dictNextPower_spec m (by omega)
  have := hmin t (by rw [← ht]; omega) (by rw [← ht]; exact h4)
  rw [← ht] at this
  exact this

/-- If `n+1` still fits in `_dictNextPower n`, the target size does not
change. -/
theorem nextPower_succ_eq (n : Nat) (h : n + 1 ≤ _dictNextPower n)
    (hn1 : n + 1 < LONG_MAX) : _dictNextPower (n + 1) = _dictNextPower n := by
  obtain ⟨hpow, _, h4, hmin⟩ := _dictNextPower_spec n (by omega)
  exact nextPower_unique (n + 1) _ hn1 hpow h4 h
    (fun j h1 h2 => hmin j (by omega) h2)

/-- Crossing a power of two doubles the target size. -/
theorem nextPower_double (t : Nat) (h4 : 4 ≤ 2 ^ t) (hb : 2 ^ t + 1 < LONG_MAX) :
    _dictNextPower (2 ^ t + 1) = 2 ^ (t + 1) := by
  have hd : (2 : Nat) ^ (t + 1) = 2 * 2 ^ t := by ring
  refine nextPower_unique (2 ^ t + 1) (2 ^ (t + 1)) hb ⟨t + 1, rfl⟩
    (by omega) (by omega) ?_
  intro j h1 h2
  have hlt : 2 ^ t < 2 ^ j := by omega
  have hj : t < j := (Nat.pow_lt_pow_iff_right (by norm_num)).mp hlt
  exact Nat.pow_le_pow_right (by norm_num) (by omega)

/-- `_dictNextPower` fixes powers of two that are at least 4. -/
theorem nextPower_of_pow (t : Nat) (h4 : 4 ≤ 2 ^ t) (hb : 2 ^ t < LONG_MAX) :
    _dictNextPower (2 ^ t) = 2 ^ t :=
  nextPower_unique (2 ^ t) (2 ^ t) hb ⟨t, rfl⟩ h4 le_rfl
    (fun j h1 _ => h1)

/-- When `skipEmpty` exhausts its budget, the index has advanced by exactly
the budget. -/
theorem skipEmpty_false_eq {K V : Type} (t : List (List (DictEntry K V))) :
    ∀ ev idx, 0 < ev → (skipEmpty t idx ev).2.2 = false →
    (skipEmpty t idx ev).1 = idx + ev := by
  intro ev
  induction ev using Nat.strong_induction_on with
  | _ ev ih =>
    intro idx hev hf
    rcases ev with _ | _ | ev2
    · omega
    · simp only [skipEmpty] at hf ⊢
      by_cases hb : (bucketAt t idx).isEmpty
      · rw [if_pos hb]
      · rw [if_neg hb] at hf
        simp at hf
    · simp only [skipEmpty] at hf ⊢
      by_cases hb : (bucketAt t idx).isEmpty
      · rw [if_pos hb] at hf ⊢
        have := ih (ev2 + 1) (by omega) (idx + 1) (by omega) hf
        omega
      · rw [if_neg hb] at hf
        simp at hf

/-- A table whose buckets are all empty has a zero `used` counter. -/
theorem used_zero_of_all_empty {K V : Type} (ht : Dictht K V)
    (hc : htConsistent ht)
    (h : ∀ i < ht.table.length, bucketAt ht.table i = []) : ht.used = 0 := by
  have hnil : ht.table.flatten = [] := by
    rw [List.flatten_eq_nil_iff]
    intro xs hxs
    obtain ⟨i, hi, hgi⟩ := List.mem_iff_getElem.mp hxs
    have hb : bucketAt ht.table i = xs := by
      simp [bucketAt, List.getD, List.getElem?_eq_getElem hi, hgi]
    rw [← hb]
    exact h i hi
  unfold htConsistent at hc
  rw [hnil] at hc
  simpa using hc

/-- Migrating the chain at bucket `idx` (the first non-empty bucket at or
past the cursor) preserves all structural invariants of a rehashing
dictionary and moves the cursor past `idx`. -/
theorem migrateState_invariants {K V : Type} (hash : K → Nat) (d : Dict K V)
    (idx : Nat)
    (hidx : 0 ≤ d.rehashidx) (h1len : 0 < d.ht1.table.length)
    (hc0 : htConsistent d.ht0) (hc1 : htConsistent d.ht1)
    (hp0 : wellPlacedHt hash d.ht0) (hp1 : wellPlacedHt hash d.ht1)
    (hbne : bucketAt d.ht0.table idx ≠ [])
    (hempty : ∀ j, d.rehashidx.toNat ≤ j → j < idx → bucketAt d.ht0.table j = [])
    (hbelow : emptyBelow d) :
    htConsistent (⟨d.ht0.table.set idx [],
      d.ht0.used - (bucketAt d.ht0.table idx).length⟩ : Dictht K V) ∧
    htConsistent (migrateChain hash (bucketAt d.ht0.table idx) d.ht1) ∧
    wellPlacedHt hash (⟨d.ht0.table.set idx [],
      d.ht0.used - (bucketAt d.ht0.table idx).length⟩ : Dictht K V) ∧
    wellPlacedHt hash (migrateChain hash (bucketAt d.ht0.table idx) d.ht1) ∧
    emptyBelow ({ d with
      ht0 := ⟨d.ht0.table.set idx [],
        d.ht0.used - (bucketAt d.ht0.table idx).length⟩,
      ht1 := migrateChain hash (bucketAt d.ht0.table idx) d.ht1,
      rehashidx := ((idx + 1 : Nat) : Int) } : Dict K V) ∧
    (migrateChain hash (bucketAt d.ht0.table idx) d.ht1).table.length =
      d.ht1.table.length := by
  have hidxlt : idx < d.ht0.table.length := bucketAt_nonempty_lt _ _ hbne
  set chain := bucketAt d.ht0.table idx with hchain
  have hflatsplit := flatten_set_nil_ms d.ht0.table idx hidxlt
  have hlensplit : d.ht0.table.flatten.length =
      chain.length + (d.ht0.table.set idx []).flatten.length := by
    have hcard := congrArg Multiset.card hflatsplit
    simpa using hcard
  have hmiglen : (migrateChain hash chain d.ht1).table.length = d.ht1.table.length :=
    migrateChain_length hash chain d.ht1
  have hmigms := migrateChain_ms hash chain d.ht1 h1len
  have hmiglensum : (migrateChain hash chain d.ht1).table.flatten.length =
      chain.length + d.ht1.table.flatten.length := by
    have hcard := congrArg Multiset.card hmigms
    simpa using hcard
  refine ⟨?_, ?_, ?_, migrateChain_placed hash chain d.ht1 hp1, ?_, hmiglen⟩
  · show d.ht0.used - chain.length = (d.ht0.table.set idx []).flatten.length
    unfold htConsistent at hc0
    omega
  · show (migrateChain hash chain d.ht1).used =
      (migrateChain hash chain d.ht1).table.flatten.length
    rw [migrateChain_used, hmiglensum]
    unfold htConsistent at hc1
    omega
  · intro i hi e he
    have hi' : i < d.ht0.table.length := by simpa using hi
    by_cases hcase : i = idx
    · rw [hcase] at he
      rw [show (⟨d.ht0.table.set idx [], d.ht0.used - chain.length⟩ :
          Dictht K V).table = d.ht0.table.set idx [] from rfl] at he
      rw [bucketAt_set_self _ _ _ hidxlt] at he
      exact absurd he (List.not_mem_nil e)
    · rw [show (⟨d.ht0.table.set idx [], d.ht0.used - chain.length⟩ :
          Dictht K V).table = d.ht0.table.set idx [] from rfl] at he
      rw [bucketAt_set_ne _ _ _ _ (fun h => hcase h.symm)] at he
      have := hp0 i hi' e he
      rw [show (⟨d.ht0.table.set idx [], d.ht0.used - chain.length⟩ :
          Dictht K V).sizemask = d.ht0.sizemask from by simp [Dictht.sizemask]]
      exact this
  · intro j hj
    have hj' : j < idx + 1 := by simpa using hj
    show bucketAt (d.ht0.table.set idx []) j = []
    by_cases hcase : j = idx
    · rw [hcase]
      exact bucketAt_set_self _ _ _ hidxlt
    · rw [bucketAt_set_ne _ _ _ _ (fun h => hcase h.symm)]
      by_cases hj0 : j < d.rehashidx.toNat
      · exact hbelow j hj0
      · exact hempty j (by omega) (by omega)

/-- With a bucket budget covering the whole remaining table (`n` and the
empty-visit budget both at least `size - rehashidx`), the rehash loop always
completes: every entry is migrated, the tables are swapped and the sentinel
is restored. -/
theorem dictRehashLoop_complete {K V : Type} (hash : K → Nat) :
    ∀ (n ev : Nat) (d : Dict K V),
    0 ≤ d.rehashidx → 0 < d.ht1.table.length →
    htConsistent d.ht0 → htConsistent d.ht1 →
    wellPlacedHt hash d.ht0 → wellPlacedHt hash d.ht1 → emptyBelow d →
    d.ht0.table.length ≤ d.rehashidx.toNat + n →
    d.ht0.table.length ≤ d.rehashidx.toNat + ev →
    (dictRehashLoop hash n ev d).2 = 0 ∧
    ¬ dictIsRehashing (dictRehashLoop hash n ev d).1 := by
  intro n
  induction n with
  | zero =>
    intro ev d hidx h1len hc0 hc1 hp0 hp1 hbelow hn hev
    have hu : d.ht0.used = 0 :=
      used_zero_of_all_empty d.ht0 hc0 (fun i hi => hbelow i (by omega))
    show (dictRehashCompleteCheck d).2 = 0 ∧
      ¬ dictIsRehashing (dictRehashCompleteCheck d).1
    unfold dictRehashCompleteCheck
    rw [if_pos hu]
    exact ⟨rfl, fun hcon => hcon rfl⟩
  | succ n ihn =>
    intro ev d hidx h1len hc0 hc1 hp0 hp1 hbelow hn hev
    show (dictRehashLoop hash (n + 1) ev d).2 = 0 ∧
      ¬ dictIsRehashing (dictRehashLoop hash (n + 1) ev d).1
    simp only [dictRehashLoop]
    by_cases h0 : d.ht0.used = 0
    · rw [if_pos h0]
      unfold dictRehashCompleteCheck
      rw [if_pos h0]
      exact ⟨rfl, fun hcon => hcon rfl⟩
    · rw [if_neg h0]
      have hev0 : 0 < ev := by
        by_contra hcon
        have hu : d.ht0.used = 0 :=
          used_zero_of_all_empty d.ht0 hc0 (fun i hi => hbelow i (by omega))
        exact h0 hu
      rcases hsp : skipEmpty d.ht0.table d.rehashidx.toNat ev with ⟨idx, ev', found⟩
      obtain ⟨hskempty, hskge, hskle, hsktrue⟩ :=
        skipEmpty_eq_spec d.ht0.table ev d.rehashidx.toNat hev0 idx ev' found hsp
      cases found with
      | false =>
        exfalso
        have hfe : idx = d.rehashidx.toNat + ev := by
          have hh := skipEmpty_false_eq d.ht0.table ev d.rehashidx.toNat hev0
            (by rw [hsp])
          rw [hsp] at hh
          exact hh
        have hu : d.ht0.used = 0 := by
          apply used_zero_of_all_empty d.ht0 hc0
          intro i hi
          by_cases hlt : i < d.rehashidx.toNat
          · exact hbelow i hlt
          · exact hskempty i (by omega) (by omega)
        exact h0 hu
      | true =>
        obtain ⟨hbne, hev', hsum⟩ := hsktrue rfl
        have hidxlt : idx < d.ht0.table.length := bucketAt_nonempty_lt _ _ hbne
        obtain ⟨mc0, mc1, mp0, mp1, mbelow, mlen⟩ :=
          migrateState_invariants hash d idx hidx h1len hc0 hc1 hp0 hp1 hbne
            (fun j h1 h2 => hskempty j h1 h2) hbelow
        exact ihn ev' { d with
            ht0 := ⟨d.ht0.table.set idx [],
              d.ht0.used - (bucketAt d.ht0.table idx).length⟩,
            ht1 := migrateChain hash (bucketAt d.ht0.table idx) d.ht1,
            rehashidx := ((idx + 1 : Nat) : Int) }
          (by show (0 : Int) ≤ ((idx + 1 : Nat) : Int); omega)
          (by show 0 < (migrateChain hash (bucketAt d.ht0.table idx) d.ht1).table.length
              omega)
          mc0 mc1 mp0 mp1 mbelow
          (by show (d.ht0.table.set idx []).length ≤
                ((idx + 1 : Nat) : Int).toNat + n
              simp only [List.length_set]
              omega)
          (by show (d.ht0.table.set idx []).length ≤
                ((idx + 1 : Nat) : Int).toNat + ev'
              simp only [List.length_set]
              omega)

/-- If the rehash loop leaves the dictionary still rehashing, the cursor has
advanced strictly (by at least one bucket). -/
theorem dictRehashLoop_succ_strict {K V : Type} (hash : K → Nat) (n ev : Nat)
    (d : Dict K V)
    (hreh : d.rehashidx ≠ -1) (hidx : 0 ≤ d.rehashidx)
    (h1len : 0 < d.ht1.table.length)
    (hc0 : htConsistent d.ht0) (hc1 : htConsistent d.ht1)
    (hp0 : wellPlacedHt hash d.ht0) (hp1 : wellPlacedHt hash d.ht1)
    (hbelow : emptyBelow d) (hev : 0 < ev)
    (hstill : dictIsRehashing (dictRehashLoop hash (n + 1) ev d).1) :
    d.rehashidx.toNat + 1 ≤ (dictRehashLoop hash (n + 1) ev d).1.rehashidx.toNat := by
  simp only [dictRehashLoop] at hstill ⊢
  by_cases h0 : d.ht0.used = 0
  · rw [if_pos h0] at hstill
    unfold dictRehashCompleteCheck at hstill
    rw [if_pos h0] at hstill
    exact absurd rfl hstill
  · rw [if_neg h0] at hstill ⊢
    rcases hsp : skipEmpty d.ht0.table d.rehashidx.toNat ev with ⟨idx, ev', found⟩
    rw [hsp] at hstill
    obtain ⟨hskempty, hskge, hskle, hsktrue⟩ :=
      skipEmpty_eq_spec d.ht0.table ev d.rehashidx.toNat hev idx ev' found hsp
    cases found with
    | false =>
      have hfe : idx = d.rehashidx.toNat + ev := by
        have hh := skipEmpty_false_eq d.ht0.table ev d.rehashidx.toNat hev
          (by rw [hsp])
        rw [hsp] at hh
        exact hh
      show d.rehashidx.toNat + 1 ≤ ((idx : Nat) : Int).toNat
      omega
    | true =>
      obtain ⟨hbne, hev', hsum⟩ := hsktrue rfl
      obtain ⟨mc0, mc1, mp0, mp1, mbelow, mlen⟩ :=
        migrateState_invariants hash d idx hidx h1len hc0 hc1 hp0 hp1 hbne
          (fun j h1 h2 => hskempty j h1 h2) hbelow
      set d' : Dict K V := { d with
        ht0 := ⟨d.ht0.table.set idx [],
          d.ht0.used - (bucketAt d.ht0.table idx).length⟩,
        ht1 := migrateChain hash (bucketAt d.ht0.table idx) d.ht1,
        rehashidx := ((idx + 1 : Nat) : Int) } with hd'
      have hloop := dictRehashLoop_spec hash n ev' d' hev'
        (by show ((idx + 1 : Nat) : Int) ≠ -1; omega)
        (by show (0 : Int) ≤ ((idx + 1 : Nat) : Int); omega)
        (by show 0 < (migrateChain hash (bucketAt d.ht0.table idx) d.ht1).table.length
            omega)
        mc0 mc1 mp0 mp1 mbelow
      obtain ⟨_, _, _, _, _, _, i7, i8, _, i10, _⟩ := hloop
      have hne : (dictRehashLoop hash n ev' d').1.rehashidx ≠ -1 := hstill
      have hr2 : (dictRehashLoop hash n ev' d').2 = 1 := by
        rcases i7 with h | h
        · exact absurd (i8.mp h) hne
        · exact h
      obtain ⟨j1, _, _, _, _⟩ := i10 hr2
      have hj1 : ((idx + 1 : Nat) : Int) ≤ (dictRehashLoop hash n ev' d').1.rehashidx := j1
      show d.rehashidx.toNat + 1 ≤ (dictRehashLoop hash n ev' d').1.rehashidx.toNat
      omega

/-- What a single internal rehash step does to a rehashing dictionary with
no live safe iterator: either it completes the rehash (tables swapped,
`ht[1]` reset), or the dictionary is still rehashing with the same table
sizes and a strictly advanced cursor. -/
theorem rehashStep_cases {K V : Type} (hash : K → Nat) (d : Dict K V)
    (hwf : dictWF hash d) (hreh : dictIsRehashing d) (hit : d.iterators = 0) :
    (¬ dictIsRehashing (_dictRehashStep hash d) ∧
      (_dictRehashStep hash d).ht0.table.length = d.ht1.table.length ∧
      (_dictRehashStep hash d).ht0.used = dictSize d ∧
      (_dictRehashStep hash d).ht1 = resetHt K V) ∨
    (dictIsRehashing (_dictRehashStep hash d) ∧
      (_dictRehashStep hash d).ht0.table.length = d.ht0.table.length ∧
      (_dictRehashStep hash d).ht1.table.length = d.ht1.table.length ∧
      d.rehashidx.toNat + 1 ≤ (_dictRehashStep hash d).rehashidx.toNat) := by
  obtain ⟨hc0, hc1, hp0, hp1, hbelow, hrehimp, hnrimp⟩ := hwf
  obtain ⟨hidx, h1len⟩ := hrehimp hreh
  have hform : _dictRehashStep hash d = (dictRehashLoop hash 1 (1 * 10) d).1 := by
    unfold _dictRehashStep dictRehash
    rw [if_pos hit, if_pos hreh]
  have hloop := dictRehashLoop_spec hash 1 (1 * 10) d (by omega) hreh hidx h1len
    hc0 hc1 hp0 hp1 hbelow
  obtain ⟨_, _, _, _, _, _, i7, i8, i9, i10, _⟩ := hloop
  by_cases hr : dictIsRehashing (_dictRehashStep hash d)
  · right
    have hne : (dictRehashLoop hash 1 (1 * 10) d).1.rehashidx ≠ -1 := by
      rw [hform] at hr
      exact hr
    have hr2 : (dictRehashLoop hash 1 (1 * 10) d).2 = 1 := by
      rcases i7 with h | h
      · exact absurd (i8.mp h) hne
      · exact h
    obtain ⟨j1, j2, j3, j4, j5⟩ := i10 hr2
    have hstrict := dictRehashLoop_succ_strict hash 0 (1 * 10) d hreh hidx h1len
      hc0 hc1 hp0 hp1 hbelow (by omega)
      (by rw [show (0 + 1 : Nat) = 1 from rfl]
          rw [hform] at hr
          exact hr)
    rw [show (0 + 1 : Nat) = 1 from rfl] at hstrict
    refine ⟨hr, ?_, ?_, ?_⟩
    · rw [hform]
      exact j3
    · rw [hform]
      exact j4
    · rw [hform]
      exact hstrict
  · left
    have hm1 : (_dictRehashStep hash d).rehashidx = -1 := not_not.mp hr
    rw [hform] at hm1
    have hr2 : (dictRehashLoop hash 1 (1 * 10) d).2 = 0 := i8.mpr hm1
    obtain ⟨j1, j2, j3⟩ := i9 hr2
    refine ⟨hr, ?_, ?_, ?_⟩
    · rw [hform]
      exact j3
    · rw [hform]
      exact j2
    · rw [hform]
      exact j1

/-- `dictExpand` succeeds whenever no rehash is running, the live count fits
and the computed size differs from the current one, and the resulting state
is the initial allocation (empty `ht[0]`) or the start of a rehash. -/
theorem dictExpand_ok {K V : Type} (d : Dict K V) (size : Nat)
    (h1 : ¬ dictIsRehashing d) (h2 : d.ht0.used ≤ size)
    (h3 : _dictNextPower size ≠ d.ht0.size) :
    (dictExpand d size).2 = DICT_OK ∧
    (d.ht0.table.isEmpty = true →
      (dictExpand d size).1 =
        { d with ht0 := ⟨List.replicate (_dictNextPower size) [], 0⟩ }) ∧
    (d.ht0.table.isEmpty = false →
      (dictExpand d size).1 =
        { d with
            ht1 := ⟨List.replicate (_dictNextPower size) [], 0⟩,
            rehashidx := 0 }) := by
  unfold dictExpand
  rw [if_neg (by push_neg; exact ⟨h1, by omega⟩)]
  dsimp only []
  rw [if_neg h3]
  by_cases h4 : d.ht0.table.isEmpty
  · rw [if_pos h4]
    exact ⟨rfl, fun _ => rfl, fun hcon => by rw [h4] at hcon; cases hcon⟩
  · rw [if_neg h4]
    refine ⟨rfl, fun hcon => absurd hcon h4, fun _ => rfl⟩

/-- An entry of a bucket is an entry of the flattened table. -/
theorem mem_flatten_of_mem_bucket {K V : Type} {t : List (List (DictEntry K V))}
    {i : Nat} {e : DictEntry K V} (he : e ∈ bucketAt t i) : e ∈ t.flatten := by
  by_cases hi : i < t.length
  · have hb : bucketAt t i = t[i] := by
      simp [bucketAt, List.getD, List.getElem?_eq_getElem hi]
    rw [hb] at he
    exact List.mem_flatten.mpr ⟨t[i], List.getElem_mem hi, he⟩
  · have hb : bucketAt t i = [] := by
      simp [bucketAt, List.getD, List.getElem?_eq_none (by omega : t.length ≤ i)]
    rw [hb] at he
    exact absurd he (List.not_mem_nil e)

/-- If no stored entry has the probed key, the bucket `any` checks of
`_dictKeyIndex` fail and a slot is returned. -/
theorem keyIndex_isSome {K V : Type} [DecidableEq K] (hash : K → Nat)
    (can : Bool) (d : Dict K V) (key : K)
    (hok : (_dictExpandIfNeeded can d).2 = DICT_OK)
    (hnotin : key ∉ dictKeysMS (_dictExpandIfNeeded can d).1) :
    ∃ idx, (_dictKeyIndex hash can d key).2 = some idx := by
  unfold _dictKeyIndex
  rcases h3 : _dictExpandIfNeeded can d with ⟨d3, code⟩
  rw [h3] at hok hnotin
  dsimp only [] at hok hnotin ⊢
  have hcode : ¬ code = DICT_ERR := by
    rw [hok]
    simp [DICT_OK, DICT_ERR]
  rw [if_neg hcode]
  have hnotin0 : ∀ i, ∀ e ∈ bucketAt d3.ht0.table i, ¬ e.key = key := by
    intro i e he hk
    apply hnotin
    have hf : e ∈ d3.ht0.table.flatten := mem_flatten_of_mem_bucket he
    have hms : e ∈ dictEntriesMS d3 := by
      show e ∈ (↑(d3.ht0.table.flatten ++ d3.ht1.table.flatten) :
        Multiset (DictEntry K V))
      rw [Multiset.mem_coe, List.mem_append]
      exact Or.inl hf
    rw [← hk]
    exact Multiset.mem_map_of_mem DictEntry.key hms
  have hnotin1 : ∀ i, ∀ e ∈ bucketAt d3.ht1.table i, ¬ e.key = key := by
    intro i e he hk
    apply hnotin
    have hf : e ∈ d3.ht1.table.flatten := mem_flatten_of_mem_bucket he
    have hms : e ∈ dictEntriesMS d3 := by
      show e ∈ (↑(d3.ht0.table.flatten ++ d3.ht1.table.flatten) :
        Multiset (DictEntry K V))
      rw [Multiset.mem_coe, List.mem_append]
      exact Or.inr hf
    rw [← hk]
    exact Multiset.mem_map_of_mem DictEntry.key hms
  have hany0 : ((bucketAt d3.ht0.table
      (dictHashKey hash key &&& d3.ht0.sizemask)).any
      (fun e => decide (e.key = key))) ≠ true := by
    intro hcon
    obtain ⟨e, he, hk⟩ := List.any_eq_true.mp hcon
    exact hnotin0 _ e he (of_decide_eq_true hk)
  rw [if_neg hany0]
  by_cases hr3 : dictIsRehashing d3
  · rw [if_pos hr3]
    have hany1 : ((bucketAt d3.ht1.table
        (dictHashKey hash key &&& d3.ht1.sizemask)).any
        (fun e => decide (e.key = key))) ≠ true := by
      intro hcon
      obtain ⟨e, he, hk⟩ := List.any_eq_true.mp hcon
      exact hnotin1 _ e he (of_decide_eq_true hk)
    rw [if_neg hany1]
    exact ⟨_, rfl⟩
  · rw [if_neg hr3]
    exact ⟨_, rfl⟩

/-- The keys of the expected entry multiset after `n` inserts are exactly
`0..n-1`. -/
theorem rangeEntries_keys (n : Nat) :
    Multiset.map DictEntry.key (rangeEntries n) = ↑(List.range n) := by
  show (↑(((List.range n).map (fun k => (⟨k, 0⟩ : DictEntry Nat Nat))).map
    DictEntry.key) : Multiset Nat) = ↑(List.range n)
  rw [List.map_map]
  have hcomp : (DictEntry.key ∘ fun k => (⟨k, 0⟩ : DictEntry Nat Nat)) = id := rfl
  rw [hcomp, List.map_id]

/-- Every key stored in a well-formed non-rehashing dictionary is found by
`dictFind`. -/
theorem find_present {K V : Type} [DecidableEq K] (hash : K → Nat)
    (d : Dict K V) (key : K) (hwf : dictWF hash d) (hnr : ¬ dictIsRehashing d)
    (hmem : key ∈ dictKeysMS d) :
    ∃ e, (dictFind hash d key).2 = some e ∧ e.key = key := by
  obtain ⟨hc0, hc1, hp0, hp1, hbelow, hrehimp, hnrimp⟩ := hwf
  obtain ⟨e0, he0, hk0⟩ := Multiset.mem_map.mp hmem
  have hflat : e0 ∈ d.ht0.table.flatten ++ d.ht1.table.flatten := by
    rw [← Multiset.mem_coe]
    exact he0
  have hreset := hnrimp hnr
  have hflat0 : e0 ∈ d.ht0.table.flatten := by
    rcases List.mem_append.mp hflat with h | h
    · exact h
    · rw [hreset] at h
      exact absurd h (List.not_mem_nil e0)
  have hlen0 : 0 < d.ht0.table.length := by
    rcases List.mem_flatten.mp hflat0 with ⟨l, hl, _⟩
    rcases List.mem_iff_getElem.mp hl with ⟨i, hi, _⟩
    omega
  have hsize0 : d.ht0.size ≠ 0 := by
    show d.ht0.table.length ≠ 0
    omega
  have hbucket : e0 ∈ bucketAt d.ht0.table
      (dictHashKey hash e0.key &&& d.ht0.sizemask) :=
    mem_bucket_of_mem_flatten hp0 e0 hflat0
  rw [hk0] at hbucket
  have hsome : ((bucketAt d.ht0.table
      (dictHashKey hash key &&& d.ht0.sizemask)).find?
      (fun e => decide (e.key = key))).isSome = true := by
    rw [List.find?_isSome]
    exact ⟨e0, hbucket, by simp [hk0]⟩
  unfold dictFind
  rw [if_neg hsize0]
  dsimp only []
  rw [if_neg hnr]
  rcases hf : (bucketAt d.ht0.table
      (dictHashKey hash key &&& d.ht0.sizemask)).find?
      (fun e => decide (e.key = key)) with _ | e
  · rw [hf] at hsome
    simp at hsome
  · refine ⟨e, ?_, ?_⟩
    · rw [hf]
    · have hp := List.find?_some hf
      exact of_decide_eq_true hp

/-- One more inserted key extends the expected entries by its entry. -/
theorem rangeEntries_succ (n : Nat) :
    rangeEntries (n + 1) = (⟨n, 0⟩ : DictEntry Nat Nat) ::ₘ rangeEntries n := by
  show (↑(((List.range (n + 1))).map (fun k => (⟨k, 0⟩ : DictEntry Nat Nat))) :
    Multiset (DictEntry Nat Nat)) = _
  rw [List.range_succ, List.map_append]
  show (↑((List.range n).map (fun k => (⟨k, 0⟩ : DictEntry Nat Nat))) +
    ↑[(⟨n, 0⟩ : DictEntry Nat Nat)] : Multiset (DictEntry Nat Nat)) = _
  rw [add_comm]
  rfl

/-- The bound `2·_dictNextPower (n+1) < LONG_MAX` keeps `n+1` itself below
`LONG_MAX`. -/
theorem c6_bound_lt (n : Nat) (hb : 2 * _dictNextPower (n + 1) < LONG_MAX) :
    n + 1 < LONG_MAX := by
  by_contra hcon
  have hLM : _dictNextPower (n + 1) = LONG_MAX := by
    unfold _dictNextPower
    rw [if_pos (by omega)]
  rw [hLM] at hb
  have h63 : LONG_MAX = 2 ^ 63 - 1 := rfl
  omega

/-- A successful `dictAdd` of the next key under the C6 invariant: the add
succeeds and the table capacities follow `_dictNextPower (n+1)`. -/
theorem c6_add_shape (hash : Nat → Nat) (n : Nat) (d : Dict Nat Nat)
    (hInv : c6Inv hash n d) (hb : 2 * _dictNextPower (n + 1) < LONG_MAX) :
    (dictAdd hash true d n 0).2 = DICT_OK ∧
    ((¬ dictIsRehashing (dictAdd hash true d n 0).1 ∧
       (dictAdd hash true d n 0).1.ht0.table.length = _dictNextPower (n + 1)) ∨
     (dictIsRehashing (dictAdd hash true d n 0).1 ∧
       (dictAdd hash true d n 0).1.ht1.table.length = _dictNextPower (n + 1) ∧
       2 * (dictAdd hash true d n 0).1.ht0.table.length = _dictNextPower (n + 1) ∧
       (dictAdd hash true d n 0).1.ht0.table.length + 1 ≤ n + 1 ∧
       n + 1 ≤ 2 * (dictAdd hash true d n 0).1.ht0.table.length ∧
       n + 1 ≤ (dictAdd hash true d n 0).1.ht0.table.length + 1 +
         (dictAdd hash true d n 0).1.rehashidx.toNat)) := by
  obtain ⟨hwf, hit, hms, hcase⟩ := hInv
  have hn1LM : n + 1 < LONG_MAX := c6_bound_lt n hb
  have hnp1 := _dictNextPower_spec (n + 1) hn1LM
  -- the dictionary after the optional rehash step
  have hstate : dictWF hash (if dictIsRehashing d then _dictRehashStep hash d else d) ∧
      dictEntriesMS (if dictIsRehashing d then _dictRehashStep hash d else d) =
        rangeEntries n ∧
      ((n = 0 ∧ (if dictIsRehashing d then _dictRehashStep hash d else d) =
          dictCreate Nat Nat) ∨
       (1 ≤ n ∧
         ¬ dictIsRehashing (if dictIsRehashing d then _dictRehashStep hash d else d) ∧
         (if dictIsRehashing d then _dictRehashStep hash d else d).ht0.table.length =
           _dictNextPower n) ∨
       (1 ≤ n ∧
         dictIsRehashing (if dictIsRehashing d then _dictRehashStep hash d else d) ∧
         (if dictIsRehashing d then _dictRehashStep hash d else d).ht1.table.length =
           _dictNextPower n ∧
         2 * (if dictIsRehashing d then _dictRehashStep hash d else d).ht0.table.length =
           _dictNextPower n ∧
         (if dictIsRehashing d then _dictRehashStep hash d else d).ht0.table.length + 1 ≤ n ∧
         n + 1 ≤ 2 * (if dictIsRehashing d then
           _dictRehashStep hash d else d).ht0.table.length ∧
         n ≤ (if dictIsRehashing d then _dictRehashStep hash d else d).ht0.table.length +
           (if dictIsRehashing d then
             _dictRehashStep hash d else d).rehashidx.toNat)) := by
    rcases hcase with ⟨hn0, hdc⟩ | ⟨hn1, hnr, hlen⟩ | ⟨hn1, hreh, hS, hS0, hlb, hub, hprog⟩
    · have hnr0 : ¬ dictIsRehashing d := by
        rw [hdc]
        intro h
        exact h rfl
      rw [if_neg hnr0]
      exact ⟨hwf, hms, Or.inl ⟨hn0, hdc⟩⟩
    · rw [if_neg hnr]
      exact ⟨hwf, hms, Or.inr (Or.inl ⟨hn1, hnr, hlen⟩)⟩
    · rw [if_pos hreh]
      have hspec := rehashStep_spec hash d hwf
      refine ⟨hspec.2.2.1, hspec.2.1.trans hms, ?_⟩
      rcases rehashStep_cases hash d hwf hreh hit with
        ⟨hnr2, hlen2, _, _⟩ | ⟨hreh2, hl0, hl1, hstrict⟩
      · refine Or.inr (Or.inl ⟨hn1, hnr2, ?_⟩)
        rw [hlen2]
        exact hS
      · -- still rehashing: the cursor cannot be in the completion zone
        have hcrit : ¬ (d.ht0.table.length ≤ d.rehashidx.toNat + 1) := by
          intro hc
          obtain ⟨hc0, hc1, hp0, hp1, hbelow, hrehimp, hnrimp⟩ := hwf
          obtain ⟨hidx, h1len⟩ := hrehimp hreh
          have hform : _dictRehashStep hash d =
              (dictRehashLoop hash 1 (1 * 10) d).1 := by
            unfold _dictRehashStep dictRehash
            rw [if_pos hit, if_pos hreh]
          have hcomp := dictRehashLoop_complete hash 1 (1 * 10) d hidx h1len
            hc0 hc1 hp0 hp1 hbelow (by omega) (by omega)
          rw [← hform] at hcomp
          exact hcomp.2 hreh2
        refine Or.inr (Or.inr ⟨hn1, hreh2, ?_, ?_, ?_, ?_, ?_⟩)
        · rw [hl1]
          exact hS
        · rw [hl0]
          exact hS0
        · rw [hl0]
          omega
        · rw [hl0]
          omega
        · rw [hl0]
          omega
  set d2 := if dictIsRehashing d then _dictRehashStep hash d else d with hd2
  obtain ⟨hwf2, hms2, htri⟩ := hstate
  have hkeys2 : (n : Nat) ∉ dictKeysMS d2 := by
    show n ∉ Multiset.map DictEntry.key (dictEntriesMS d2)
    rw [hms2, rangeEntries_keys]
    simp
  -- capacity check: succeeds in every case, with known result shape
  have hexp : (_dictExpandIfNeeded true d2).2 = DICT_OK ∧
      ((¬ dictIsRehashing (_dictExpandIfNeeded true d2).1 ∧
         (_dictExpandIfNeeded true d2).1.ht0.table.length = _dictNextPower (n + 1) ∧
         (_dictExpandIfNeeded true d2).1.ht1.table.length = d2.ht1.table.length) ∨
       (dictIsRehashing (_dictExpandIfNeeded true d2).1 ∧
         (_dictExpandIfNeeded true d2).1.ht1.table.length = _dictNextPower (n + 1) ∧
         2 * (_dictExpandIfNeeded true d2).1.ht0.table.length =
           _dictNextPower (n + 1) ∧
         (_dictExpandIfNeeded true d2).1.ht0.table.length + 1 ≤ n + 1 ∧
         n + 1 ≤ 2 * (_dictExpandIfNeeded true d2).1.ht0.table.length ∧
         n + 1 ≤ (_dictExpandIfNeeded true d2).1.ht0.table.length + 1 +
           (_dictExpandIfNeeded true d2).1.rehashidx.toNat)) := by
    rcases htri with ⟨hn0, hdc⟩ | ⟨hn1, hnr2, hlen2⟩ | hB
    · -- fresh dictionary: initial allocation to size 4
      have hnp1v : _dictNextPower (n + 1) = 4 := by
        rw [hn0]
        exact nextPower_unique 1 4 (by rw [show LONG_MAX = 2 ^ 63 - 1 from rfl]; omega)
          ⟨2, rfl⟩ le_rfl (by omega) (fun j h1 h2 => h2)
      have hnr2 : ¬ dictIsRehashing d2 := by
        rw [hdc]
        intro h
        exact h rfl
      have hsz : d2.ht0.size = 0 := by
        rw [hdc]
        rfl
      unfold _dictExpandIfNeeded
      rw [if_neg hnr2, if_pos hsz]
      have hnp4 : _dictNextPower DICT_HT_INITIAL_SIZE = 4 :=
        nextPower_unique 4 4 (by rw [show LONG_MAX = 2 ^ 63 - 1 from rfl]; omega)
          ⟨2, rfl⟩ le_rfl le_rfl (fun j h1 h2 => h2)
      have hok := dictExpand_ok d2 DICT_HT_INITIAL_SIZE hnr2
        (by rw [hdc]; show (0 : Nat) ≤ 4; omega)
        (by rw [hnp4, hsz]; omega)
      have hempty : d2.ht0.table.isEmpty = true := by
        rw [hdc]
        rfl
      refine ⟨hok.1, Or.inl ?_⟩
      rw [hok.2.1 hempty]
      refine ⟨?_, ?_, rfl⟩
      · show ¬ d2.rehashidx ≠ -1
        rw [hdc]
        intro h
        exact h rfl
      · show (List.replicate (_dictNextPower DICT_HT_INITIAL_SIZE)
          ([] : List (DictEntry Nat Nat))).length = _dictNextPower (n + 1)
        rw [List.length_replicate, hnp4, hnp1v]
    · -- not rehashing: expand exactly when the table is full
      have hnLM : n < LONG_MAX := by omega
      obtain ⟨⟨t, ht⟩, hge, h4, _⟩ := _dictNextPower_spec n hnLM
      have hused0 : d2.ht0.used = n := by
        obtain ⟨hc0, _, _, _, _, _, hnrimp⟩ := hwf2
        have hreset := hnrimp hnr2
        have hflat1 : d2.ht1.table.flatten.length = 0 := by
          rw [hreset]
          rfl
        have hcardr : Multiset.card (rangeEntries n) = n := by
          simp [rangeEntries]
        have hcard := congrArg Multiset.card hms2
        have hcoe : Multiset.card (dictEntriesMS d2) =
            (d2.ht0.table.flatten ++ d2.ht1.table.flatten).length :=
          Multiset.coe_card _
        rw [hcoe, hcardr] at hcard
        rw [List.length_append] at hcard
        unfold htConsistent at hc0
        omega
      have hS4 : 4 ≤ _dictNextPower n := h4
      have hsz : d2.ht0.size ≠ 0 := by
        show d2.ht0.table.length ≠ 0
        omega
      unfold _dictExpandIfNeeded
      rw [if_neg hnr2, if_neg hsz]
      by_cases hfull : n = _dictNextPower n
      · -- table full: double
        have htrig : d2.ht0.used ≥ d2.ht0.size ∧ (true = true ∨
            d2.ht0.used / d2.ht0.size > dict_force_resize_ratio) := by
          constructor
          · show d2.ht0.used ≥ d2.ht0.table.length
            omega
          · exact Or.inl rfl
        rw [if_pos htrig]
        have h2S : _dictNextPower (d2.ht0.used * 2) = 2 ^ (t + 1) := by
          have hn2 : d2.ht0.used * 2 = 2 ^ (t + 1) := by
            rw [hused0]
            have : (2 : Nat) ^ (t + 1) = 2 * 2 ^ t := by ring
            omega
          rw [hn2]
          refine nextPower_of_pow (t + 1) ?_ ?_
          · have : (2 : Nat) ^ t ≤ 2 ^ (t + 1) :=
              Nat.pow_le_pow_right (by norm_num) (by omega)
            omega
          · have hmono := nextPower_mono n (n + 1) (by omega) hn1LM
            have : (2 : Nat) ^ (t + 1) = 2 * 2 ^ t := by ring
            omega
        have hne : _dictNextPower (d2.ht0.used * 2) ≠ d2.ht0.size := by
          rw [h2S]
          show 2 ^ (t + 1) ≠ d2.ht0.table.length
          have : (2 : Nat) ^ (t + 1) = 2 * 2 ^ t := by ring
          have hpos : 0 < (2 : Nat) ^ t := Nat.pos_pow_of_pos t (by norm_num)
          omega
        have hok := dictExpand_ok d2 (d2.ht0.used * 2) hnr2 (by omega) hne
        have hempty : d2.ht0.table.isEmpty = false := by
          cases htab : d2.ht0.table with
          | nil =>
            rw [htab] at hlen2
            simp at hlen2
            omega
          | cons a l => rfl
        refine ⟨hok.1, Or.inr ?_⟩
        rw [hok.2.2 hempty]
        have hnp1eq : _dictNextPower (n + 1) = 2 ^ (t + 1) := by
          have hn1 : n + 1 = 2 ^ t + 1 := by omega
          rw [hn1]
          refine nextPower_double t (by omega) ?_
          have hmono := nextPower_mono n (n + 1) (by omega) hn1LM
          have : (2 : Nat) ^ (t + 1) = 2 * 2 ^ t := by ring
          omega
        refine ⟨?_, ?_, ?_, ?_, ?_, ?_⟩
        · show ¬ ((0 : Int) = -1)
          omega
        · show (List.replicate (_dictNextPower (d2.ht0.used * 2))
            ([] : List (DictEntry Nat Nat))).length = _dictNextPower (n + 1)
          rw [List.length_replicate, h2S, hnp1eq]
        · show 2 * d2.ht0.table.length = _dictNextPower (n + 1)
          rw [hnp1eq]
          have : (2 : Nat) ^ (t + 1) = 2 * 2 ^ t := by ring
          omega
        · show d2.ht0.table.length + 1 ≤ n + 1
          omega
        · show n + 1 ≤ 2 * d2.ht0.table.length
          have hpos : 0 < (2 : Nat) ^ t := Nat.pos_pow_of_pos t (by norm_num)
          omega
        · show n + 1 ≤ d2.ht0.table.length + 1 + ((0 : Int)).toNat
          have : ((0 : Int)).toNat = 0 := rfl
          omega
      · -- room left: no expansion
        have hlt : n < _dictNextPower n := by omega
        have htrig : ¬ (d2.ht0.used ≥ d2.ht0.size ∧ (true = true ∨
            d2.ht0.used / d2.ht0.size > dict_force_resize_ratio)) := by
          intro hcon
          have : d2.ht0.used ≥ d2.ht0.table.length := hcon.1
          omega
        rw [if_neg htrig]
        refine ⟨rfl, Or.inl ⟨hnr2, ?_, rfl⟩⟩
        show d2.ht0.table.length = _dictNextPower (n + 1)
        rw [hlen2]
        exact (nextPower_succ_eq n (by omega) hn1LM).symm
    · -- rehashing: the capacity check is a no-op
      obtain ⟨hn1, hreh2, hS, hS0, hlb, hub, hprog⟩ := hB
      have hnLM : n < LONG_MAX := by omega
      unfold _dictExpandIfNeeded
      rw [if_pos hreh2]
      refine ⟨rfl, Or.inr ⟨hreh2, ?_, ?_, ?_, ?_, ?_⟩⟩
      · show d2.ht1.table.length = _dictNextPower (n + 1)
        rw [hS]
        exact (nextPower_succ_eq n (by omega) hn1LM).symm
      · show 2 * d2.ht0.table.length = _dictNextPower (n + 1)
        rw [hS0]
        exact (nextPower_succ_eq n (by omega) hn1LM).symm
      · show d2.ht0.table.length + 1 ≤ n + 1
        omega
      · show n + 1 ≤ 2 * d2.ht0.table.length
        exact hub
      · show n + 1 ≤ d2.ht0.table.length + 1 + d2.rehashidx.toNat
        omega
  -- the key gets a slot
  have hnotin3 : (n : Nat) ∉ dictKeysMS (_dictExpandIfNeeded true d2).1 := by
    have hmseq := (expandIfNeeded_spec hash true d2 hwf2).2.1
    show n ∉ Multiset.map DictEntry.key (dictEntriesMS (_dictExpandIfNeeded true d2).1)
    rw [hmseq, hms2, rangeEntries_keys]
    simp
  obtain ⟨idx, hkidx⟩ := keyIndex_isSome hash true d2 n hexp.1 hnotin3
  have hkfst := keyIndex_fst hash true d2 (n : Nat)
  -- now evaluate dictAdd
  show (dictAdd hash true d n 0).2 = DICT_OK ∧ _
  unfold dictAdd
  rw [← hd2]
  dsimp only []
  rcases hki : _dictKeyIndex hash true d2 n with ⟨d3, o⟩
  rw [hki] at hkidx hkfst
  dsimp only [] at hkidx hkfst
  rw [hkidx]
  dsimp only []
  rcases hexp.2 with ⟨hnr3, hlen3, hlen31⟩ | ⟨hreh3, h3a, h3b, h3c, h3d, h3e⟩
  · rw [← hkfst] at hnr3 hlen3
    rw [if_neg hnr3]
    refine ⟨rfl, Or.inl ⟨hnr3, ?_⟩⟩
    show (d3.ht0.table.set idx ((⟨n, 0⟩ : DictEntry Nat Nat) ::
      bucketAt d3.ht0.table idx)).length = _dictNextPower (n + 1)
    rw [List.length_set]
    exact hlen3
  · rw [← hkfst] at hreh3 h3a h3b h3c h3d h3e
    rw [if_pos hreh3]
    refine ⟨rfl, Or.inr ⟨hreh3, ?_, h3b, h3c, h3d, h3e⟩⟩
    show (d3.ht1.table.set idx ((⟨n, 0⟩ : DictEntry Nat Nat) ::
      bucketAt d3.ht1.table idx)).length = _dictNextPower (n + 1)
    rw [List.length_set]
    exact h3a

/-- The C6 invariant holds for the fresh dictionary. -/
theorem c6Inv_zero (hash : Nat → Nat) : c6Inv hash 0 (dictCreate Nat Nat) :=
  ⟨(dictCreate_wf hash).1, rfl, rfl, Or.inl ⟨rfl, rfl⟩⟩

/-- The C6 invariant is preserved by inserting the next key. -/
theorem c6_step (hash : Nat → Nat) (n : Nat) (d : Dict Nat Nat)
    (hInv : c6Inv hash n d) (hb : 2 * _dictNextPower (n + 1) < LONG_MAX) :
    c6Inv hash (n + 1) (dictAdd hash true d n 0).1 := by
  obtain ⟨hok, hshape⟩ := c6_add_shape hash n d hInv hb
  obtain ⟨hwf, hit, hms, hcase⟩ := hInv
  obtain ⟨hwf', hit', _, hoks, _⟩ := dictAdd_spec hash true d n 0 hwf
  refine ⟨hwf', by rw [hit']; exact hit, ?_, ?_⟩
  · obtain ⟨hms', _⟩ := hoks hok
    rw [hms', hms, rangeEntries_succ]
  · rcases hshape with ⟨hnr, hlen⟩ | hB
    · exact Or.inr (Or.inl ⟨by omega, hnr, hlen⟩)
    · exact Or.inr (Or.inr ⟨by omega, hB.1, hB.2.1, hB.2.2.1, hB.2.2.2.1,
        hB.2.2.2.2.1, hB.2.2.2.2.2⟩)

/-- The C6 invariant holds after every prefix of the insertion sequence. -/
theorem insertKeys_inv (hash : Nat → Nat) (N : Nat)
    (hb : 2 * _dictNextPower N < LONG_MAX) :
    ∀ n, n ≤ N → c6Inv hash n (insertKeys hash n) := by
  have hNLM : N < LONG_MAX := by
    by_contra hcon
    have hfix : _dictNextPower N = LONG_MAX := by
      unfold _dictNextPower
      rw [if_pos (by omega)]
    rw [hfix] at hb
    have h63 : LONG_MAX = 2 ^ 63 - 1 := rfl
    omega
  intro n
  induction n with
  | zero =>
    intro _
    exact c6Inv_zero hash
  | succ m ih =>
    intro hle
    have hbm : 2 * _dictNextPower (m + 1) < LONG_MAX := by
      have := nextPower_mono (m + 1) N hle hNLM
      omega
    exact c6_step hash m (insertKeys hash m) (ih (by omega)) hbm

/-- C6 (amended): inserting the `N` distinct keys `0..N-1` (any hash
function) into a fresh dictionary with resizing enabled, then letting the
pending rehash run to completion, leaves `ht[0]` with capacity
`_dictNextPower N` — the smallest power of two that is at least `N`, with a
floor of 4 (so for `N ≤ 3` the capacity is 4, not the smallest power of two
at least `N`) — and every one of the `N` keys is findable by `dictFind`. -/
theorem c6_capacity_and_findable (hash : Nat → Nat) (N : Nat) (hN : 1 ≤ N)
    (hb : 2 * _dictNextPower N < LONG_MAX) :
    ¬ dictIsRehashing (c6Final hash N) ∧
    (c6Final hash N).ht0.table.length = _dictNextPower N ∧
    ∀ k, k < N →
      ∃ e, (dictFind hash (c6Final hash N) k).2 = some e ∧ e.key = k := by
  obtain ⟨hwf, hit, hms, hcase⟩ := insertKeys_inv hash N hb N le_rfl
  have hkeysN : dictKeysMS (insertKeys hash N) = ↑(List.range N) := by
    show Multiset.map DictEntry.key (dictEntriesMS (insertKeys hash N)) = _
    rw [hms, rangeEntries_keys]
  rcases hcase with ⟨hn0, _⟩ | ⟨_, hnr, hlen⟩ | ⟨_, hreh, hS, hS0, _, _, _⟩
  · omega
  · have hfix : c6Final hash N = insertKeys hash N := by
      unfold c6Final dictRehash
      rw [if_neg hnr]
    rw [hfix]
    refine ⟨hnr, hlen, ?_⟩
    intro k hk
    refine find_present hash (insertKeys hash N) k hwf hnr ?_
    rw [hkeysN]
    rw [Multiset.mem_coe, List.mem_range]
    exact hk
  · obtain ⟨hc0, hc1, hp0, hp1, hbelow, hrehimp, hnrimp⟩ := hwf
    obtain ⟨hidx, h1len⟩ := hrehimp hreh
    have hS0pos : 0 < (insertKeys hash N).ht0.table.length := by
      have h4 := (_dictNextPower_spec N (by
        have h63 : LONG_MAX = 2 ^ 63 - 1 := rfl
        by_contra hcon
        have hfix : _dictNextPower N = LONG_MAX := by
          unfold _dictNextPower
          rw [if_pos (by omega)]
        rw [hfix] at hb
        omega)).2.2.1
      omega
    have hform : c6Final hash N = (dictRehashLoop hash
        (insertKeys hash N).ht0.table.length
        ((insertKeys hash N).ht0.table.length * 10) (insertKeys hash N)).1 := by
      unfold c6Final dictRehash
      rw [if_pos hreh]
    have hcomp := dictRehashLoop_complete hash
      (insertKeys hash N).ht0.table.length
      ((insertKeys hash N).ht0.table.length * 10) (insertKeys hash N)
      hidx h1len hc0 hc1 hp0 hp1 hbelow (by omega) (by omega)
    have hloop := dictRehashLoop_spec hash
      (insertKeys hash N).ht0.table.length
      ((insertKeys hash N).ht0.table.length * 10) (insertKeys hash N)
      (by omega) hreh hidx h1len hc0 hc1 hp0 hp1 hbelow
    have hwfF := rehashStepOK_toWF hash (insertKeys hash N)
      ((insertKeys hash N).ht0.table.length * 10 +
        (insertKeys hash N).ht0.table.length) _ hloop hidx h1len
    obtain ⟨_, _, _, _, _, _, _, _, i9, _, _⟩ := hloop
    obtain ⟨_, _, hlenF⟩ := i9 hcomp.1
    rw [hform]
    refine ⟨hcomp.2, ?_, ?_⟩
    · rw [hlenF]
      exact hS
    · intro k hk
      refine find_present hash _ k hwfF.1 hcomp.2 ?_
      show k ∈ Multiset.map DictEntry.key (dictEntriesMS _)
      rw [hwfF.2.1, hms, rangeEntries_keys]
      rw [Multiset.mem_coe, List.mem_range]
      exact hk

/-- Witness for C6 at `N = 5` with the identity hash. -/
theorem c6_capacity_and_findable_witness :
    ((1 ≤ 5 ∧ 2 * _dictNextPower 5 < LONG_MAX) ∧
     ¬ dictIsRehashing (c6Final idHash 5) ∧
     (c6Final idHash 5).ht0.table.length = _dictNextPower 5 ∧
     ∀ k, k < 5 →
       ∃ e, (dictFind idHash (c6Final idHash 5) k).2 = some e ∧ e.key = k) :=
  ⟨⟨by decide, by decide⟩, c6_capacity_and_findable idHash 5 (by decide) (by decide)⟩

/-- C6 counterexample: after inserting `N = 1` key the final capacity is the
fixed minimum 4, not the smallest power of two at least `N` (which is
`2^0 = 1`). -/
theorem c6_counterexample :
    ¬ dictIsRehashing (insertKeys idHash 1) ∧
    (insertKeys idHash 1).ht0.table.length = 4 ∧
    (1 : Nat) ≤ 2 ^ 0 ∧ (insertKeys idHash 1).ht0.table.length ≠ 2 ^ 0 := by
  decide

end DictModel
